import Mathlib

set_option maxHeartbeats 1000000

/-!
Verification of the nanotext v2 selection-scoped rich-text mutation engine
(`src/nanotext-v2.ts`).  The DOM content tree is shallowly embedded as a
nested inductive `DomNode`; DOM node references are represented by paths
(lists of child indices) from the editor root, and DOM boundary points
(node, offset) by `Pos`.
-/

/-- A DOM node: a text node (opaque character run) or an element with a tag
name (stored uppercase, as `Element.tagName` reports it in HTML documents),
attributes, an inline `style.textAlign` value, and an ordered child list. -/
inductive DomNode where
  | text (s : String)
  | elem (tag : String) (attrs : List (String × String)) (align : Option String)
      (children : List DomNode)

mutual

/-- `Node.textContent`: concatenation of all descendant text in document order. -/
def textContent : DomNode → String
  | .text s => s
  | .elem _ _ _ cs => textContentList cs

/-- `textContent` of a sibling list, concatenated in order. -/
def textContentList : List DomNode → String
  | [] => ""
  | c :: cs => textContent c ++ textContentList cs

end

/-- `const BLOCK_TAGS = ['P', 'H1', 'H2', 'BLOCKQUOTE', 'PRE', 'LI', 'FIGURE']` -/
def BLOCK_TAGS : List String := ["P", "H1", "H2", "BLOCKQUOTE", "PRE", "LI", "FIGURE"]

/-- `const INLINE_TAGS = ['STRONG', 'EM', 'U', 'S', 'SUB', 'SUP', 'A']` -/
def INLINE_TAGS : List String := ["STRONG", "EM", "U", "S", "SUB", "SUP", "A"]

/-- A DOM node reference, represented as the list of child indices leading from
the editor root (`editorContent`) to the node.  The root itself is `[]`. -/
abbrev DPath := List Nat

/-- A DOM boundary point `(node, offset)`: the offset is a character index when
the node is a text node and a child index when it is an element. -/
structure Pos where
  path : DPath
  off : Nat
deriving DecidableEq, Repr

/-- A DOM `Range`: a pair of boundary points. -/
structure DomRange where
  startPos : Pos
  endPos : Pos
deriving DecidableEq, Repr

/-- `Range.collapsed`: start and end are the identical boundary point. -/
def DomRange.collapsed (r : DomRange) : Bool := r.startPos == r.endPos

/-- Total key of a boundary point for document-order comparison: comparing
`path ++ [off]` lexicographically agrees with DOM
`Range.compareBoundaryPoints` on boundary points of one tree. -/
def posKey (p : Pos) : List Nat := p.path ++ [p.off]

/-- Strict lexicographic order on boundary-point keys (document order). -/
def keyLt : List Nat → List Nat → Bool
  | [], [] => false
  | [], _ :: _ => true
  | _ :: _, [] => false
  | a :: as, b :: bs => a < b || (a = b && keyLt as bs)

/-- Non-strict document order on boundary-point keys. -/
def keyLe (a b : List Nat) : Bool := !keyLt b a

/-- Resolve a path to the node it references, if it exists. -/
def nodeAt : DomNode → DPath → Option DomNode
  | n, [] => some n
  | .text _, _ :: _ => none
  | .elem _ _ _ cs, i :: p =>
    match cs[i]? with
    | some c => nodeAt c p
    | none => none

/-- `node.childNodes.length` at a path (`none` if unresolvable or a text node). -/
def childCountAt (root : DomNode) (p : DPath) : Option Nat :=
  match nodeAt root p with
  | some (.elem _ _ _ cs) => some cs.length
  | _ => none

/-- `tagName.toUpperCase()` (DOM tag names are stored uppercase). -/
def upperTag (s : String) : String := ⟨s.data.map Char.toUpper⟩

/-- `isElementWithTag`: the node at `p` is an element whose `tagName` equals
`tagName.toUpperCase()`. -/
def isTagAt (root : DomNode) (p : DPath) (tagName : String) : Bool :=
  match nodeAt root p with
  | some (.elem t _ _ _) => t = upperTag tagName
  | _ => false

/-- The node at `p` is an element with tag in the given set. -/
def isTagInAt (root : DomNode) (p : DPath) (tags : List String) : Bool :=
  match nodeAt root p with
  | some (.elem t _ _ _) => t ∈ tags
  | _ => false

/-- Replace the node at a path by the result of `f` (DOM in-place update). -/
def updAt : DomNode → DPath → (DomNode → Option DomNode) → Option DomNode
  | n, [], f => f n
  | .text _, _ :: _, _ => none
  | .elem t a al cs, i :: p, f =>
    match cs[i]? with
    | some c =>
      match updAt c p f with
      | some c2 => some (.elem t a al (cs.set i c2))
      | none => none
    | none => none

/-- Rewrite the child list of the element at a path (insertion/removal of
children of one parent, the primitive all DOM mutations reduce to). -/
def updChildren (root : DomNode) (p : DPath) (f : List DomNode → Option (List DomNode)) :
    Option DomNode :=
  updAt root p (fun n =>
    match n with
    | .text _ => none
    | .elem t a al cs =>
      match f cs with
      | some cs2 => some (.elem t a al cs2)
      | none => none)

/-- Splice the element at `p` out of its parent: its children are inserted in
its place, in order, and the element is removed (the unwrap primitive of
`unwrapSelection` / `removeTagsFromFragment`). -/
def unwrapAt (root : DomNode) (p : DPath) : Option DomNode :=
  match p.getLast? with
  | none => none
  | some i =>
    updChildren root p.dropLast (fun cs =>
      match cs[i]? with
      | some (.elem _ _ _ inner) => some (cs.take i ++ inner ++ cs.drop (i + 1))
      | _ => none)

/-- Slice of a child list: the children with indices in `[i, j)`. -/
def sliceList (cs : List DomNode) (i j : Nat) : List DomNode := (cs.take j).drop i

/-- Substring of a text run: the characters with indices in `[i, j)`. -/
def sliceText (s : String) (i j : Nat) : String := (s.take j).drop i

/-- `Range.extractContents`, suffix side: remove everything from the boundary
point (given by a path/offset relative to this node) to the end of the node.
Returns the node as it remains in the tree and the cloned partially-contained
part that goes into the extracted fragment, per the WHATWG range algorithm
(a partially contained element stays in the tree keeping its out-of-range
children; a shallow clone holding the in-range part goes to the fragment). -/
def splitSuffix : DomNode → DPath → Nat → Option (DomNode × DomNode)
  | .text s, [], o =>
    if o ≤ s.length then some (.text (s.take o), .text (s.drop o)) else none
  | .elem t a al cs, [], o =>
    if o ≤ cs.length then some (.elem t a al (cs.take o), .elem t a al (cs.drop o)) else none
  | .text _, _ :: _, _ => none
  | .elem t a al cs, i :: p, o =>
    match cs[i]? with
    | some c =>
      match splitSuffix c p o with
      | some (r, f) =>
        some (.elem t a al (cs.take i ++ [r]), .elem t a al (f :: cs.drop (i + 1)))
      | none => none
    | none => none

/-- `Range.extractContents`, prefix side: remove everything from the start of
the node up to the boundary point.  Returns the cloned fragment part and the
node as it remains in the tree. -/
def splitPrefix : DomNode → DPath → Nat → Option (DomNode × DomNode)
  | .text s, [], o =>
    if o ≤ s.length then some (.text (s.take o), .text (s.drop o)) else none
  | .elem t a al cs, [], o =>
    if o ≤ cs.length then some (.elem t a al (cs.take o), .elem t a al (cs.drop o)) else none
  | .text _, _ :: _, _ => none
  | .elem t a al cs, i :: p, o =>
    match cs[i]? with
    | some c =>
      match splitPrefix c p o with
      | some (f, r) =>
        some (.elem t a al (cs.take i ++ [f]), .elem t a al (r :: cs.drop (i + 1)))
      | none => none
    | none => none

/-- `range.extractContents()`: removes the range's content from the tree.
Returns the tree after removal, the extracted fragment (a child list), and
the boundary point the range collapses to (where `insertNode` will insert),
following the WHATWG extraction algorithm: text nodes and elements partially
contained in the range are split, fully contained children move to the
fragment whole, and the range collapses between the two remainders.
`none` models the calls that throw (offsets out of bounds, start after end),
i.e. the operation not completing. -/
def extractCore : DomNode → DPath → Nat → DPath → Nat → Option (DomNode × List DomNode × Pos)
  | .text s, [], so, [], eo =>
    if so ≤ eo ∧ eo ≤ s.length then
      some (.text (s.take so ++ s.drop eo), [.text (sliceText s so eo)], ⟨[], so⟩)
    else none
  | .elem t a al cs, [], so, [], eo =>
    if so ≤ eo ∧ eo ≤ cs.length then
      some (.elem t a al (cs.take so ++ cs.drop eo), sliceList cs so eo, ⟨[], so⟩)
    else none
  | .elem t a al cs, i :: sp, so, [], eo =>
    if i < eo ∧ eo ≤ cs.length then
      match cs[i]? with
      | some c =>
        match splitSuffix c sp so with
        | some (r, f) =>
          some (.elem t a al (cs.take i ++ [r] ++ cs.drop eo),
                f :: sliceList cs (i + 1) eo, ⟨[], i + 1⟩)
        | none => none
      | none => none
    else none
  | .elem t a al cs, [], so, j :: ep, eo =>
    if so ≤ j then
      match cs[j]? with
      | some c =>
        match splitPrefix c ep eo with
        | some (f, r) =>
          some (.elem t a al (cs.take so ++ [r] ++ cs.drop (j + 1)),
                sliceList cs so j ++ [f], ⟨[], so⟩)
        | none => none
      | none => none
    else none
  | .elem t a al cs, i :: sp, so, j :: ep, eo =>
    if i = j then
      match cs[i]? with
      | some c =>
        match extractCore c sp so ep eo with
        | some (c2, frag, pos) => some (.elem t a al (cs.set i c2), frag, ⟨i :: pos.path, pos.off⟩)
        | none => none
      | none => none
    else if i < j then
      match cs[i]?, cs[j]? with
      | some ci, some cj =>
        match splitSuffix ci sp so, splitPrefix cj ep eo with
        | some (ri, fi), some (fj, rj) =>
          some (.elem t a al (cs.take i ++ [ri] ++ [rj] ++ cs.drop (j + 1)),
                fi :: sliceList cs (i + 1) j ++ [fj], ⟨[], i + 1⟩)
        | _, _ => none
      | _, _ => none
    else none
  | .text _, _, _, _, _ => none

/-- `range.insertNode(w)` at a collapsed boundary point: insert as a child at
the offset when the point is in an element; split the text node and insert
between the halves when it is in a text node (DOM `splitText` behaviour).
Returns the new tree and the path of the inserted node. -/
def insertGo : DomNode → DPath → Nat → DomNode → Option (DomNode × DPath)
  | .text _, [], _, _ => none
  | .elem t a al cs, [], o, w =>
    if o ≤ cs.length then some (.elem t a al (cs.take o ++ [w] ++ cs.drop o), [o]) else none
  | .text _, _ :: _, _, _ => none
  | .elem t a al cs, [i], o, w =>
    match cs[i]? with
    | some (.text s) =>
      if o ≤ s.length then
        some (.elem t a al (cs.take i ++ [.text (s.take o), w, .text (s.drop o)] ++ cs.drop (i + 1)),
              [i + 1])
      else none
    | some (.elem t2 a2 al2 cs2) =>
      if o ≤ cs2.length then
        some (.elem t a al (cs.set i (.elem t2 a2 al2 (cs2.take o ++ [w] ++ cs2.drop o))),
              [i, o])
      else none
    | none => none
  | .elem t a al cs, i :: p :: q, o, w =>
    match cs[i]? with
    | some c =>
      match insertGo c (p :: q) o w with
      | some (c2, sub) => some (.elem t a al (cs.set i c2), i :: sub)
      | none => none
    | none => none

/-- `range.insertNode(w)` at a collapsed boundary point: insert as a child at
the offset when the point is in an element; split the text node and insert
between the halves when it is in a text node (DOM `splitText` behaviour).
Returns the new tree and the path of the inserted node. -/
def insertAt (n : DomNode) (pos : Pos) (w : DomNode) : Option (DomNode × DPath) :=
  insertGo n pos.path pos.off w

/-- Text in document order strictly before a boundary point within a node. -/
def textBefore : DomNode → DPath → Nat → String
  | .text s, [], o => s.take o
  | .elem _ _ _ cs, [], o => textContentList (cs.take o)
  | .text _, _ :: _, _ => ""
  | .elem _ _ _ cs, i :: p, o =>
    textContentList (cs.take i) ++
      (match cs[i]? with
       | some c => textBefore c p o
       | none => "")

/-- Text in document order at or after a boundary point within a node. -/
def textAfter : DomNode → DPath → Nat → String
  | .text s, [], o => s.drop o
  | .elem _ _ _ cs, [], o => textContentList (cs.drop o)
  | .text _, _ :: _, _ => ""
  | .elem _ _ _ cs, i :: p, o =>
    (match cs[i]? with
     | some c => textAfter c p o
     | none => "") ++ textContentList (cs.drop (i + 1))

mutual

/-- `removeTagsFromFragment` on a single node: nodes other than elements of
the target tag are kept (their subtrees processed); an element of the target
tag is unwrapped, its processed children spliced into its place in order.
This is the net effect of the source's static `querySelectorAll(tagName)`
snapshot followed by unwrapping each matched element in document order. -/
def removeTagsNode (tag : String) : DomNode → List DomNode
  | .text s => [.text s]
  | .elem t a al cs =>
    if t = tag then removeTagsList tag cs
    else [.elem t a al (removeTagsList tag cs)]

/-- `removeTagsFromFragment` over a sibling list. -/
def removeTagsList (tag : String) : List DomNode → List DomNode
  | [] => []
  | c :: cs => removeTagsNode tag c ++ removeTagsList tag cs

end

mutual

/-- `cleanupEmptyElements` on the subtree of one node: every descendant
element with an inline tag and empty `textContent` is removed together with
its (necessarily all-empty) subtree.  This is the net effect of the source's
per-tag reverse iteration over `getElementsByTagName`, since removing an
empty-text subtree never changes any other element's `textContent`. -/
def cleanupNode : DomNode → DomNode
  | .text s => .text s
  | .elem t a al cs => .elem t a al (cleanupList cs)

/-- `cleanupEmptyElements` over a sibling list. -/
def cleanupList : List DomNode → List DomNode
  | [] => []
  | c :: cs =>
    match c with
    | .elem t a al cs2 =>
      if t ∈ INLINE_TAGS ∧ (textContent (.elem t a al cs2)).length = 0 then cleanupList cs
      else cleanupNode (.elem t a al cs2) :: cleanupList cs
    | .text s => .text s :: cleanupList cs

end

mutual

/-- Is some element with the given tag present in the subtree (the node
itself included)? -/
def hasTagNode (tag : String) : DomNode → Bool
  | .text _ => false
  | .elem t _ _ cs => t = tag || hasTagList tag cs

/-- Is some element with the given tag present in a sibling forest? -/
def hasTagList (tag : String) : List DomNode → Bool
  | [] => false
  | c :: cs => hasTagNode tag c || hasTagList tag cs

end

mutual

/-- Is some inline/semantic element with empty `textContent` present in the
subtree (the node itself included)? -/
def hasEmptyInlineNode : DomNode → Bool
  | .text _ => false
  | .elem t a al cs =>
    (decide (t ∈ INLINE_TAGS) && decide ((textContent (.elem t a al cs)).length = 0)) ||
      hasEmptyInlineList cs

/-- Is some empty inline element present in a sibling forest? -/
def hasEmptyInlineList : List DomNode → Bool
  | [] => false
  | c :: cs => hasEmptyInlineNode c || hasEmptyInlineList cs

end

/-- `walkUp`/`findAncestor` as a path function: try the node itself, then each
proper ancestor in turn, stopping before the editor root (`[]`), and return
the first whose element tag matches; mirrors
`while (current && current !== editorContent)`. -/
def findAncestorRev (root : DomNode) (tagName : String) : DPath → Option DPath
  | [] => none
  | i :: rev =>
    if isTagAt root (i :: rev).reverse tagName then some (i :: rev).reverse
    else findAncestorRev root tagName rev

/-- `findAncestor(node, tagName)`: nearest ancestor-or-self element with the
tag, walking up from the node at `p` and stopping at the editor root. -/
def findAncestorPath (root : DomNode) (tagName : String) (p : DPath) : Option DPath :=
  findAncestorRev root tagName p.reverse

/-- The walk of `findParentBlock`, on reversed paths. -/
def findParentBlockRev (root : DomNode) : DPath → Option DPath
  | [] => none
  | i :: rev =>
    if isTagInAt root (i :: rev).reverse BLOCK_TAGS then some (i :: rev).reverse
    else findParentBlockRev root rev

/-- `findParentBlock` / `getParentBlock`: nearest ancestor-or-self element
whose tag is in `BLOCK_TAGS`, stopping at the editor root. -/
def findParentBlockPath (root : DomNode) (p : DPath) : Option DPath :=
  findParentBlockRev root p.reverse

/-- `isInElement(tagName)`: the selection anchor has an ancestor element of
the tag.  The anchor of a selection holding one forward range is the range's
start boundary point. -/
def isInElement (root : DomNode) (r : DomRange) (tagName : String) : Bool :=
  (findAncestorPath root tagName r.startPos.path).isSome

/-- Longest common prefix of two paths: the path of the deepest common
ancestor (`range.commonAncestorContainer`) of two node references. -/
def commonPrefix : DPath → DPath → DPath
  | [], _ => []
  | _, [] => []
  | a :: as, b :: bs => if a = b then a :: commonPrefix as bs else []

/-- `elRange.selectNodeContents(el)` containment test of
`isSelectionFullyWrapped`: the element's content range starts at or before
the selection start and ends at or after the selection end
(`compareBoundaryPoints` closed-interval comparison). -/
def containsRangeAt (root : DomNode) (p : DPath) (r : DomRange) : Bool :=
  match nodeAt root p with
  | some (.elem _ _ _ cs) =>
    keyLe (p ++ [0]) (posKey r.startPos) && keyLe (posKey r.endPos) (p ++ [cs.length])
  | _ => false

/-- The ancestor walk of `isSelectionFullyWrapped`, on reversed paths. -/
def fullyWrappedRev (root : DomNode) (tagName : String) (r : DomRange) : DPath → Bool
  | [] => false
  | i :: rev =>
    (isTagAt root (i :: rev).reverse tagName && containsRangeAt root (i :: rev).reverse r) ||
      fullyWrappedRev root tagName r rev

/-- `isSelectionFullyWrapped(tagName)`: walk up from the selection's common
ancestor container (taking its parent when it is a text node) and report
whether some ancestor element of the tag fully contains the selection,
boundary containment being closed-interval. -/
def isSelectionFullyWrapped (root : DomNode) (r : DomRange) (tagName : String) : Bool :=
  let cac := commonPrefix r.startPos.path r.endPos.path
  let start :=
    match nodeAt root cac with
    | some (.text _) => cac.dropLast
    | _ => cac
  fullyWrappedRev root tagName r start.reverse

/-- Net adjustment of a live boundary point when the element at `pp ++ [e]`
(with `n` children) is unwrapped (children moved out one by one with
`insertBefore`, then the element removed), following the WHATWG live-range
mutation steps: a boundary at or inside the element ends at `(parent, e+n)`;
boundaries in the parent after the element shift by `n - 1`. -/
def adjustAfterUnwrap (pp : DPath) (e n : Nat) (q : Pos) : Pos :=
  if (pp ++ [e]).isPrefixOf q.path then ⟨pp, e + n⟩
  else if pp.isPrefixOf q.path then
    match q.path.drop pp.length with
    | k :: rest => if e < k then ⟨pp ++ (k + n - 1) :: rest, q.off⟩ else q
    | [] => if e < q.off then ⟨pp, q.off + n - 1⟩ else q
  else q

/-- `unwrapSelection(tagName)`: walk up from the selection anchor to the
nearest element of the tag, splice its children into its parent in place and
remove it.  No selection is written back: the live selection is only adjusted
by the DOM mutation steps (`adjustAfterUnwrap`).  When no matching ancestor
exists the call falls through with no mutation. -/
def unwrapSelection (tagName : String) (sel : Option DomRange) (root : DomNode) :
    DomNode × Option DomRange :=
  match sel with
  | none => (root, none)
  | some r =>
    match findAncestorPath root tagName r.startPos.path with
    | none => (root, some r)
    | some ap =>
      match nodeAt root ap, unwrapAt root ap, ap.getLast? with
      | some (.elem _ _ _ inner), some root2, some e =>
        let adj := adjustAfterUnwrap ap.dropLast e inner.length
        (root2, some ⟨adj r.startPos, adj r.endPos⟩)
      | _, _, _ => (root, some r)

mutual

/-- Relative paths of the strict descendants of a node, in document
(preorder) order: the traversal order of a `TreeWalker` rooted at the node. -/
def subPathsNode : DomNode → List DPath
  | .text _ => []
  | .elem _ _ _ cs => subPathsList 0 cs

/-- Relative descendant paths of a sibling forest starting at child index `i`. -/
def subPathsList : Nat → List DomNode → List DPath
  | _, [] => []
  | i, c :: cs => [i] :: ((subPathsNode c).map (fun q => i :: q) ++ subPathsList (i + 1) cs)

end

/-- `range.intersectsNode(node)` per the DOM standard: the range start is
before `(parent, index+1)` and the range end is after `(parent, index)`. -/
def intersectsNode (r : DomRange) (p : DPath) : Bool :=
  match p.getLast? with
  | none => true
  | some i =>
    keyLt (posKey r.startPos) (p.dropLast ++ [i + 1]) && keyLt p (posKey r.endPos)

/-- `getBlocksInSelection(range)`: a `TreeWalker` over the common ancestor
container (or its parent element when it is a text node) collecting, in
document order, every descendant element whose tag is in the local list
`['P','H1','H2','BLOCKQUOTE','PRE','LI']` (note: no `FIGURE`) and which the
range intersects. -/
def getBlocksInSelection (root : DomNode) (r : DomRange) : List DPath :=
  let blockTags : List String := ["P", "H1", "H2", "BLOCKQUOTE", "PRE", "LI"]
  let cac := commonPrefix r.startPos.path r.endPos.path
  let wroot :=
    match nodeAt root cac with
    | some (.elem _ _ _ _) => cac
    | _ => cac.dropLast
  match nodeAt root wroot with
  | some n =>
    ((subPathsNode n).map (fun q => wroot ++ q)).filter
      (fun p => isTagInAt root p blockTags && intersectsNode r p)
  | none => []

/-- `wrapRange(range, tagName, attributes)`: extract the range's contents,
strip same-tag elements from the extracted fragment, wrap the remainder in a
new element of the tag, reinsert it at the collapsed range position, then
clean empty inline elements in the wrapper's parent subtree.  Returns the
tree, the inserted wrapper's path, and the wrapper as the cleanup leaves it
(the source returns the wrapper node reference). -/
def wrapRange (root : DomNode) (r : DomRange) (tagName : String)
    (attrs : List (String × String)) : Option (DomNode × DPath × DomNode) :=
  match extractCore root r.startPos.path r.startPos.off r.endPos.path r.endPos.off with
  | none => none
  | some (t1, frag, pos) =>
    let frag2 := removeTagsList (upperTag tagName) frag
    let wrapper : DomNode := .elem (upperTag tagName) attrs none frag2
    match insertAt t1 ⟨pos.path, pos.off⟩ wrapper with
    | none => none
    | some (t2, wpath) =>
      match updAt t2 wpath.dropLast (fun c => some (cleanupNode c)) with
      | none => none
      | some t3 => some (t3, wpath, cleanupNode wrapper)

/-- The per-block sub-range of `wrapSelectionPerBlock`: first block from the
selection start to the block end, last block from the block start to the
selection end, interior blocks their whole contents
(`selectNodeContents`).  `childNodes.length` is read from the current tree. -/
def blockRangeFor (tree : DomNode) (blocks : List DPath) (nBlocks : Nat) (r : DomRange)
    (i : Nat) : Option DomRange :=
  match blocks[i]? with
  | none => none
  | some bp =>
    if i = 0 then
      match childCountAt tree bp with
      | some cnt => some ⟨r.startPos, ⟨bp, cnt⟩⟩
      | none => none
    else if i = nBlocks - 1 then some ⟨⟨bp, 0⟩, r.endPos⟩
    else
      match childCountAt tree bp with
      | some cnt => some ⟨⟨bp, 0⟩, ⟨bp, cnt⟩⟩
      | none => none

/-- One iteration of the reverse loop of `wrapSelectionPerBlock`: skip a
collapsed block range, otherwise wrap it and record the wrapper as first/last
when the block index is `0` / `nBlocks - 1`. -/
def perBlockStep (tagName : String) (attrs : List (String × String)) (blocks : List DPath)
    (nBlocks : Nat) (r : DomRange) (i : Nat) (tree : DomNode)
    (firstW lastW : Option DPath) : Option (DomNode × Option DPath × Option DPath) :=
  match blockRangeFor tree blocks nBlocks r i with
  | none => none
  | some br =>
    if br.collapsed then some (tree, firstW, lastW)
    else
      match wrapRange tree br tagName attrs with
      | none => none
      | some (t2, wpath, _) =>
        some (t2, (if i = 0 then some wpath else firstW),
              (if i = nBlocks - 1 then some wpath else lastW))

/-- The reverse-document-order loop of `wrapSelectionPerBlock`: process block
indices `i, i-1, …, 0` so earlier mutations do not invalidate later
boundaries. -/
def perBlockGo (tagName : String) (attrs : List (String × String)) (blocks : List DPath)
    (nBlocks : Nat) (r : DomRange) :
    Nat → DomNode → Option DPath → Option DPath → Option (DomNode × Option DPath × Option DPath)
  | 0, tree, firstW, lastW => perBlockStep tagName attrs blocks nBlocks r 0 tree firstW lastW
  | k + 1, tree, firstW, lastW =>
    match perBlockStep tagName attrs blocks nBlocks r (k + 1) tree firstW lastW with
    | none => none
    | some (t2, fw2, lw2) => perBlockGo tagName attrs blocks nBlocks r k t2 fw2 lw2

/-- `wrapSelectionPerBlock(tagName, attributes)`: wrap the selection in one
piece when at most one block intersects it, otherwise wrap each intersecting
block's portion separately in reverse order, then restore the selection from
the first created wrapper's start to the last created wrapper's end. -/
def wrapSelectionPerBlock (tagName : String) (attrs : List (String × String))
    (sel : Option DomRange) (root : DomNode) : Option (DomNode × Option DomRange) :=
  match sel with
  | none => some (root, none)
  | some r =>
    if r.collapsed then some (root, some r)
    else
      let blocks := getBlocksInSelection root r
      if blocks.length ≤ 1 then
        match wrapRange root r tagName attrs with
        | none => none
        | some (t1, wpath, _) =>
          let cnt := (childCountAt t1 wpath).getD 0
          some (t1, some ⟨⟨wpath, 0⟩, ⟨wpath, cnt⟩⟩)
      else
        match perBlockGo tagName attrs blocks blocks.length r (blocks.length - 1) root none none with
        | none => none
        | some (t2, some fw, some lw) =>
          let cnt := (childCountAt t2 lw).getD 0
          some (t2, some ⟨⟨fw, 0⟩, ⟨lw, cnt⟩⟩)
        | some (t2, _, _) => some (t2, some r)

/-- `toggleElement(tagName)`: silent no-op without a selection; collapsed
selection unwraps when inside the tag and otherwise no-ops; a non-collapsed
selection unwraps when fully wrapped and otherwise wraps per block. -/
def toggleElement (tagName : String) (sel : Option DomRange) (root : DomNode) :
    Option (DomNode × Option DomRange) :=
  match sel with
  | none => some (root, none)
  | some r =>
    if r.collapsed then
      if isInElement root r tagName then some (unwrapSelection tagName (some r) root)
      else some (root, some r)
    else
      if isSelectionFullyWrapped root r tagName then
        some (unwrapSelection tagName (some r) root)
      else wrapSelectionPerBlock tagName [] sel root

/-- Is the node an element (`nodeType === ELEMENT_NODE`)? -/
def isElemNode : DomNode → Bool
  | .elem _ _ _ _ => true
  | .text _ => false

/-- `Array.from(parent.children).indexOf(child)` for the child at raw
child-node index `i`: the number of element children before it
(`children` is the element-only collection). -/
def elemIndexAmong (cs : List DomNode) (i : Nat) : Nat :=
  ((cs.take i).filter isElemNode).length

/-- `parent.children.length`: number of element children. -/
def elemCount (cs : List DomNode) : Nat := (cs.filter isElemNode).length

/-- Raw child-node index of `parent.lastElementChild`, if any. -/
def lastElemIdx : List DomNode → Option Nat
  | [] => none
  | c :: cs =>
    match lastElemIdx cs with
    | some k => some (k + 1)
    | none => if isElemNode c then some 0 else none

/-- The list-item extraction shared by `setBlockType` (list branch) and
`toggleList` (same-kind branch): the replacement block `newBlock` takes the
item's place relative to the list.  `lp` is the list element's path, `li` its
index in its parent, `lcs` its children, `bi` the item's raw child index.
Only item: replace the whole list; first item: insert the replacement before
the list and remove the item; last item: insert it after the list and remove
the item; interior item: move the trailing siblings into a fresh list of the
same tag, insert the replacement and the new list after the original, remove
the item.  Mutations are performed in the source's order. -/
def extractListItem (root : DomNode) (lp : DPath) (li : Nat) (ltag : String)
    (lcs : List DomNode) (bi : Nat) (newBlock : DomNode) : Option (DomNode × DPath) :=
  let itemIndex := elemIndexAmong lcs bi
  let totalItems := elemCount lcs
  if totalItems = 1 then
    match updAt root lp (fun _ => some newBlock) with
    | some root2 => some (root2, lp)
    | none => none
  else if itemIndex = 0 then
    match updChildren root lp.dropLast
        (fun cs => some (cs.take li ++ [newBlock] ++ cs.drop li)) with
    | none => none
    | some root2 =>
      match updChildren root2 (lp.dropLast ++ [li + 1])
          (fun cs => some (cs.take bi ++ cs.drop (bi + 1))) with
      | some root3 => some (root3, lp.dropLast ++ [li])
      | none => none
  else if itemIndex = totalItems - 1 then
    match updChildren root lp.dropLast
        (fun cs => some (cs.take (li + 1) ++ [newBlock] ++ cs.drop (li + 1))) with
    | none => none
    | some root2 =>
      match updChildren root2 lp (fun cs => some (cs.take bi ++ cs.drop (bi + 1))) with
      | some root3 => some (root3, lp.dropLast ++ [li + 1])
      | none => none
  else
    let newList : DomNode := .elem ltag [] none (lcs.drop (bi + 1))
    match updAt root lp (fun n =>
        match n with
        | .elem t a al _ => some (.elem t a al (lcs.take (bi + 1)))
        | _ => none) with
    | none => none
    | some root2 =>
      match updChildren root2 lp.dropLast
          (fun cs => some (cs.take (li + 1) ++ [newBlock] ++ cs.drop (li + 1))) with
      | none => none
      | some root3 =>
        match updChildren root3 lp.dropLast
            (fun cs => some (cs.take (li + 2) ++ [newList] ++ cs.drop (li + 2))) with
        | none => none
        | some root4 =>
          match updChildren root4 lp (fun cs => some (cs.take bi ++ cs.drop (bi + 1))) with
          | some root5 => some (root5, lp.dropLast ++ [li + 1])
          | none => none

/-- `setBlockType(tagName)`: no-op without a selection or enclosing block or
when the block already has the tag; a list item is extracted from its list
(`extractListItem`); otherwise the block is replaced in place by a new
element of the tag carrying its content and text-align, and the selection
collapses to the end of the new block's content. -/
def setBlockType (tagName : String) (sel : Option DomRange) (root : DomNode) :
    Option (DomNode × Option DomRange) :=
  match sel with
  | none => some (root, none)
  | some r =>
    match findParentBlockPath root r.startPos.path with
    | none => some (root, some r)
    | some bp =>
      match nodeAt root bp, bp.getLast? with
      | some (.elem btag _ balign bcs), some bi =>
        if btag = upperTag tagName then some (root, some r)
        else
          let stdChange : Option (DomNode × Option DomRange) :=
            let newBlock : DomNode := .elem (upperTag tagName) [] balign bcs
            match updAt root bp (fun _ => some newBlock) with
            | some root2 => some (root2, some ⟨⟨bp, bcs.length⟩, ⟨bp, bcs.length⟩⟩)
            | none => none
          if btag = "LI" then
            let lp := bp.dropLast
            match nodeAt root lp with
            | some (.elem ltag _ _ lcs) =>
              if ltag = "UL" ∨ ltag = "OL" then
                match lp.getLast? with
                | none => none
                | some li =>
                  let newBlock : DomNode := .elem (upperTag tagName) [] none bcs
                  match extractListItem root lp li ltag lcs bi newBlock with
                  | some (root2, nbPath) =>
                    some (root2, some ⟨⟨nbPath, bcs.length⟩, ⟨nbPath, bcs.length⟩⟩)
                  | none => none
              else stdChange
            | _ => none
          else stdChange
      | _, _ => some (root, some r)

/-- `setAlignment(value)`: set `style.textAlign` on the nearest block;
no-op without a selection or block; no selection write-back. -/
def setAlignment (v : String) (sel : Option DomRange) (root : DomNode) :
    DomNode × Option DomRange :=
  match sel with
  | none => (root, none)
  | some r =>
    match findParentBlockPath root r.startPos.path with
    | none => (root, some r)
    | some bp =>
      match updAt root bp (fun n =>
          match n with
          | .elem t a _ cs => some (.elem t a (some v) cs)
          | _ => none) with
      | some root2 => (root2, some r)
      | none => (root, some r)

/-- `toggleList(type)`: a list item of the same kind is demoted to a
paragraph via the shared list extraction; a list item under a container of a
different tag converts the container in place, the selection falling back to
the container's last element child (the index lookup happens after the
children have been moved, so `indexOf` is `-1` and `children[-1]` is
undefined); any other block is promoted to a single-item list of the kind. -/
def toggleList (listType : String) (sel : Option DomRange) (root : DomNode) :
    Option (DomNode × Option DomRange) :=
  match sel with
  | none => some (root, none)
  | some r =>
    match findParentBlockPath root r.startPos.path with
    | none => some (root, some r)
    | some bp =>
      match nodeAt root bp, bp.getLast? with
      | some (.elem btag _ _ bcs), some bi =>
        if btag = "LI" then
          let lp := bp.dropLast
          match nodeAt root lp, lp.getLast? with
          | some (.elem ltag _ _ lcs), some li =>
            if ltag = upperTag listType then
              let p : DomNode := .elem "P" [] none bcs
              match extractListItem root lp li ltag lcs bi p with
              | some (root2, pPath) =>
                some (root2, some ⟨⟨pPath, bcs.length⟩, ⟨pPath, bcs.length⟩⟩)
              | none => none
            else
              let newList : DomNode := .elem (upperTag listType) [] none lcs
              match updAt root lp (fun _ => some newList) with
              | none => none
              | some root2 =>
                match lastElemIdx lcs with
                | some k =>
                  let cnt :=
                    match lcs[k]? with
                    | some (.elem _ _ _ ics) => ics.length
                    | _ => 0
                  some (root2, some ⟨⟨lp ++ [k], cnt⟩, ⟨lp ++ [k], cnt⟩⟩)
                | none => some (root2, some r)
          | _, _ => none
        else
          let li : DomNode := .elem "LI" [] none bcs
          let list : DomNode := .elem (upperTag listType) [] none [li]
          match updAt root bp (fun _ => some list) with
          | some root2 =>
            some (root2, some ⟨⟨bp ++ [0], bcs.length⟩, ⟨bp ++ [0], bcs.length⟩⟩)
          | none => none
      | _, _ => some (root, some r)

/-- `insertFigure(url)`: build a figure holding an image and an editable
empty caption, insert it after the current block (or at the cursor when no
block encloses it), and collapse the selection into the caption. -/
def insertFigure (url : String) (sel : Option DomRange) (root : DomNode) :
    Option (DomNode × Option DomRange) :=
  match sel with
  | none => some (root, none)
  | some r =>
    let figure : DomNode := .elem "FIGURE" [] none
      [.elem "IMG" [("src", url)] none [],
       .elem "FIGCAPTION" [("contenteditable", "true")] none []]
    match findParentBlockPath root r.startPos.path with
    | some bp =>
      match bp.getLast? with
      | none => none
      | some bi =>
        match updChildren root bp.dropLast
            (fun cs => some (cs.take (bi + 1) ++ [figure] ++ cs.drop (bi + 1))) with
        | some root2 =>
          let cap := bp.dropLast ++ [bi + 1, 1]
          some (root2, some ⟨⟨cap, 0⟩, ⟨cap, 0⟩⟩)
        | none => none
    | none =>
      match insertAt root r.startPos figure with
      | some (root2, fpath) => some (root2, some ⟨⟨fpath ++ [1], 0⟩, ⟨fpath ++ [1], 0⟩⟩)
      | none => none

/-- The start of the ancestor walk of `isSelectionFullyWrapped`: the common
ancestor container of the selection, replaced by its parent when it is a text
node (`container.parentElement`). -/
def wrapWalkStart (root : DomNode) (r : DomRange) : DPath :=
  let cac := commonPrefix r.startPos.path r.endPos.path
  match nodeAt root cac with
  | some (.text _) => cac.dropLast
  | _ => cac

/-- Spec-modelled full-coverage predicate (from the spec wording, for
comparison with the source's `isSelectionFullyWrapped`): every text leaf the
selection intersects has an ancestor-or-self chain containing an element of
the tag. -/
def specLeafCovered (root : DomNode) (r : DomRange) (tagName : String) : Bool :=
  ((subPathsNode root).filter (fun q =>
      (match nodeAt root q with
       | some (.text _) => true
       | _ => false) &&
      intersectsNode r q)).all
    (fun q => (findAncestorPath root tagName q).isSome)

/-- Text in document order strictly before the subtree at a path. -/
def textBeforePath : DomNode → DPath → String
  | _, [] => ""
  | .text _, _ :: _ => ""
  | .elem _ _ _ cs, i :: p =>
    textContentList (cs.take i) ++
      (match cs[i]? with
       | some c => textBeforePath c p
       | none => "")

/-- Text in document order strictly after the subtree at a path. -/
def textAfterPath : DomNode → DPath → String
  | _, [] => ""
  | .text _, _ :: _ => ""
  | .elem _ _ _ cs, i :: p =>
    (match cs[i]? with
     | some c => textAfterPath c p
     | none => "") ++ textContentList (cs.drop (i + 1))

/-- Total functional substitution of the subtree at a path. -/
def replaceAt : DomNode → DPath → DomNode → DomNode
  | _, [], n2 => n2
  | .text s, _ :: _, _ => .text s
  | .elem t a al cs, i :: p, n2 =>
    .elem t a al
      (match cs[i]? with
       | some c => cs.set i (replaceAt c p n2)
       | none => cs)

/-- Is the node an `LI` element? -/
def isLINode : DomNode → Bool
  | .elem "LI" _ _ _ => true
  | _ => false

/-- Are all children list-items (the spec's invariant I2 for one container)? -/
def allLIs (cs : List DomNode) : Bool := cs.all isLINode

mutual

/-- Invariant I2 over the whole tree: every `UL`/`OL` element has exclusively
`LI` element children. -/
def listsWF : DomNode → Bool
  | .text _ => true
  | .elem t _ _ cs => (!(t == "UL" || t == "OL") || allLIs cs) && listsWFList cs

/-- `listsWF` over a sibling forest. -/
def listsWFList : List DomNode → Bool
  | [] => true
  | c :: cs => listsWF c && listsWFList cs

end

theorem strTake_append_drop (s : String) (n : Nat) : s.take n ++ s.drop n = s := by
  apply String.ext
  simp [String.data_take, String.data_drop, String.data_append]

theorem textContentList_append (a b : List DomNode) :
    textContentList (a ++ b) = textContentList a ++ textContentList b := by
  induction a with
  | nil => simp [textContentList]
  | cons c cs ih =>
    simp only [List.cons_append, textContentList, ih]
    apply String.ext
    simp [String.data_append]
    simp [ih, String.data_append]

theorem list_eq_take_cons_drop {α : Type} (cs : List α) (i : Nat) (c : α)
    (h : cs[i]? = some c) : cs = cs.take i ++ c :: cs.drop (i + 1) := by
  induction cs generalizing i with
  | nil => simp at h
  | cons x xs ih =>
    cases i with
    | zero =>
      simp only [List.getElem?_cons_zero, Option.some.injEq] at h
      simp [h]
    | succ n =>
      simp only [List.getElem?_cons_succ] at h
      simpa using ih n h

theorem tcl_split (cs : List DomNode) (i : Nat) (c : DomNode) (h : cs[i]? = some c) :
    textContentList cs =
      textContentList (cs.take i) ++ textContent c ++ textContentList (cs.drop (i + 1)) := by
  conv_lhs => rw [list_eq_take_cons_drop cs i c h]
  rw [textContentList_append]
  simp only [textContentList]
  apply String.ext
  simp [String.data_append]

theorem tcl_set (cs : List DomNode) (i : Nat) (c c2 : DomNode) (h : cs[i]? = some c) :
    textContentList (cs.set i c2) =
      textContentList (cs.take i) ++ textContent c2 ++ textContentList (cs.drop (i + 1)) := by
  have hlen : i < cs.length := by
    by_contra hc
    rw [List.getElem?_eq_none (Nat.le_of_not_lt hc)] at h
    exact Option.noConfusion h
  rw [List.set_eq_take_append_cons_drop, if_pos hlen, textContentList_append]
  simp only [textContentList]
  apply String.ext
  simp [String.data_append]

theorem splitSuffix_text (p : DPath) (n r f : DomNode) (o : Nat)
    (h : splitSuffix n p o = some (r, f)) :
    textContent n = textContent r ++ textContent f := by
  induction p generalizing n r f with
  | nil =>
    cases n with
    | text s =>
      simp only [splitSuffix] at h
      split at h
      · simp only [Option.some.injEq, Prod.mk.injEq] at h
        obtain ⟨h1, h2⟩ := h
        subst h1; subst h2
        simp [textContent, strTake_append_drop]
      · exact Option.noConfusion h
    | elem t a al cs =>
      simp only [splitSuffix] at h
      split at h
      · simp only [Option.some.injEq, Prod.mk.injEq] at h
        obtain ⟨h1, h2⟩ := h
        subst h1; subst h2
        simp only [textContent]
        rw [← textContentList_append, List.take_append_drop]
      · exact Option.noConfusion h
  | cons i p ih =>
    cases n with
    | text s =>
      simp only [splitSuffix] at h
      exact Option.noConfusion h
    | elem t a al cs =>
      simp only [splitSuffix] at h
      split at h
      · rename_i c hc
        split at h
        · rename_i rc fc hs
          simp only [Option.some.injEq, Prod.mk.injEq] at h
          obtain ⟨h1, h2⟩ := h
          subst h1; subst h2
          simp only [textContent]
          rw [tcl_split cs i c hc, textContentList_append, ih c rc fc hs]
          simp only [textContentList]
          apply String.ext
          simp [String.data_append]
        · exact Option.noConfusion h
      · exact Option.noConfusion h

theorem splitPrefix_text (p : DPath) (n f r : DomNode) (o : Nat)
    (h : splitPrefix n p o = some (f, r)) :
    textContent n = textContent f ++ textContent r := by
  induction p generalizing n f r with
  | nil =>
    cases n with
    | text s =>
      simp only [splitPrefix] at h
      split at h
      · simp only [Option.some.injEq, Prod.mk.injEq] at h
        obtain ⟨h1, h2⟩ := h
        subst h1; subst h2
        simp [textContent, strTake_append_drop]
      · exact Option.noConfusion h
    | elem t a al cs =>
      simp only [splitPrefix] at h
      split at h
      · simp only [Option.some.injEq, Prod.mk.injEq] at h
        obtain ⟨h1, h2⟩ := h
        subst h1; subst h2
        simp only [textContent]
        rw [← textContentList_append, List.take_append_drop]
      · exact Option.noConfusion h
  | cons i p ih =>
    cases n with
    | text s =>
      simp only [splitPrefix] at h
      exact Option.noConfusion h
    | elem t a al cs =>
      simp only [splitPrefix] at h
      split at h
      · rename_i c hc
        split at h
        · rename_i fc rc hs
          simp only [Option.some.injEq, Prod.mk.injEq] at h
          obtain ⟨h1, h2⟩ := h
          subst h1; subst h2
          simp only [textContent]
          rw [tcl_split cs i c hc, textContentList_append, ih c fc rc hs]
          simp only [textContentList]
          apply String.ext
          simp [String.data_append]
        · exact Option.noConfusion h
      · exact Option.noConfusion h

theorem lt_of_getElem?_some {α : Type} {l : List α} {i : Nat} {a : α}
    (h : l[i]? = some a) : i < l.length := by
  by_contra hc
  rw [List.getElem?_eq_none (Nat.le_of_not_lt hc)] at h
  exact Option.noConfusion h

theorem drop_cons_of_getElem?_some {α : Type} {l : List α} {i : Nat} {a : α}
    (h : l[i]? = some a) : l.drop i = a :: l.drop (i + 1) := by
  have hlt := lt_of_getElem?_some h
  have hv : l[i] = a := by
    rw [List.getElem?_eq_getElem hlt] at h
    exact Option.some.inj h
  rw [List.drop_eq_getElem_cons hlt, hv]

theorem set_take_self {α : Type} (l : List α) (i : Nat) (a : α) :
    (l.set i a).take i = l.take i := by
  induction l generalizing i with
  | nil => simp
  | cons x xs ih =>
    cases i with
    | zero => simp
    | succ n => simp [ih]

theorem set_drop_succ {α : Type} (l : List α) (i : Nat) (a : α) :
    (l.set i a).drop (i + 1) = l.drop (i + 1) := by
  induction l generalizing i with
  | nil => simp
  | cons x xs ih =>
    cases i with
    | zero => simp
    | succ n => simp [ih]

theorem getElem?_set_self {α : Type} (l : List α) (i : Nat) (a : α) (h : i < l.length) :
    (l.set i a)[i]? = some a := by
  induction l generalizing i with
  | nil => simp at h
  | cons x xs ih =>
    cases i with
    | zero => simp
    | succ n =>
      simp only [List.length_cons, Nat.add_lt_add_iff_right] at h
      simpa using ih n h

theorem take_middle_drop {α : Type} (l : List α) (so eo : Nat) (h : so ≤ eo) :
    l = l.take so ++ (l.take eo).drop so ++ l.drop eo := by
  have h1 : (l.take eo).take so = l.take so := by
    rw [List.take_take, Nat.min_eq_left h]
  calc l = l.take eo ++ l.drop eo := (List.take_append_drop eo l).symm
    _ = ((l.take eo).take so ++ (l.take eo).drop so) ++ l.drop eo := by
        rw [List.take_append_drop so (l.take eo)]
    _ = l.take so ++ (l.take eo).drop so ++ l.drop eo := by rw [h1]

theorem drop_split_at {α : Type} (l : List α) (k eo : Nat) (h : k ≤ eo) :
    l.drop k = (l.take eo).drop k ++ l.drop eo := by
  have h2 : k + (eo - k) = eo := by omega
  have h3 : eo - k + k = eo := by omega
  conv_lhs => rw [← List.take_append_drop (eo - k) (l.drop k)]
  rw [List.take_drop, List.drop_drop, h2]

theorem take_append_single {α : Type} (a : List α) (r : α) (rest : List α) (i : Nat)
    (h : a.length = i) : (a ++ [r] ++ rest).take (i + 1) = a ++ [r] := by
  rw [List.take_append_eq_append_take, List.take_append_eq_append_take]
  simp [h, List.take_of_length_le]

theorem drop_append_single {α : Type} (a : List α) (r : α) (rest : List α) (i : Nat)
    (h : a.length = i) : (a ++ [r] ++ rest).drop (i + 1) = rest := by
  rw [List.drop_append_eq_append_drop, List.drop_append_eq_append_drop]
  simp [h]

theorem str_length_data (s : String) : s.length = s.data.length := rfl

theorem take_append_left_of_len {α : Type} (a b : List α) (i : Nat) (h : a.length = i) :
    (a ++ b).take i = a := by
  subst h
  exact List.take_left a b

theorem drop_append_left_of_len {α : Type} (a b : List α) (i : Nat) (h : a.length = i) :
    (a ++ b).drop i = b := by
  subst h
  exact List.drop_left a b

theorem str_take_append_left (a b : String) : (a ++ b).take a.length = a := by
  apply String.ext
  rw [String.data_take, String.data_append, str_length_data]
  exact List.take_left a.data b.data

theorem str_drop_append_left (a b : String) : (a ++ b).drop a.length = b := by
  apply String.ext
  rw [String.data_drop, String.data_append, str_length_data]
  exact List.drop_left a.data b.data

theorem strLen_take (s : String) (n : Nat) (h : n ≤ s.length) : (s.take n).length = n := by
  rw [str_length_data, String.data_take, List.length_take]
  exact Nat.min_eq_left h

theorem strTake_middle_drop (s : String) (so eo : Nat) (h : so ≤ eo) :
    s = s.take so ++ sliceText s so eo ++ s.drop eo := by
  apply String.ext
  simp only [sliceText, String.data_append, String.data_take, String.data_drop]
  exact take_middle_drop s.data so eo h

theorem extractCore_text (sp : DPath) (so eo : Nat) (n : DomNode) (ep : DPath)
    (n2 : DomNode) (frag : List DomNode) (pos : Pos)
    (h : extractCore n sp so ep eo = some (n2, frag, pos)) :
    textContent n =
      textBefore n2 pos.path pos.off ++ textContentList frag ++
        textAfter n2 pos.path pos.off := by
  induction sp generalizing n ep n2 frag pos with
  | nil =>
    cases n with
    | text s =>
      cases ep with
      | nil =>
        simp only [extractCore] at h
        split at h
        · rename_i hcond
          simp only [Option.some.injEq, Prod.mk.injEq] at h
          obtain ⟨h1, h2, h3⟩ := h
          subst h1; subst h2; subst h3
          simp only [textBefore, textAfter, textContent, textContentList]
          have hso : so ≤ (s.take so).length := by
            rw [strLen_take s so (by omega)]
          have hb : (s.take so ++ s.drop eo).take so = s.take so := by
            have := str_take_append_left (s.take so) (s.drop eo)
            rwa [strLen_take s so (by omega)] at this
          have ha : (s.take so ++ s.drop eo).drop so = s.drop eo := by
            have := str_drop_append_left (s.take so) (s.drop eo)
            rwa [strLen_take s so (by omega)] at this
          rw [hb, ha]
          have hmid := strTake_middle_drop s so eo (by omega)
          conv_lhs => rw [hmid]
          apply String.ext
          simp [String.data_append]
        · exact Option.noConfusion h
      | cons j ep =>
        simp only [extractCore] at h
        exact Option.noConfusion h
    | elem t a al cs =>
      cases ep with
      | nil =>
        simp only [extractCore] at h
        split at h
        · rename_i hcond
          simp only [Option.some.injEq, Prod.mk.injEq] at h
          obtain ⟨h1, h2, h3⟩ := h
          subst h1; subst h2; subst h3
          simp only [textBefore, textAfter, textContent, textContentList]
          have hlen : (cs.take so).length = so := by
            rw [List.length_take]; omega
          rw [take_append_left_of_len (cs.take so) (cs.drop eo) so hlen,
            drop_append_left_of_len (cs.take so) (cs.drop eo) so hlen]
          conv_lhs => rw [take_middle_drop cs so eo (by omega)]
          rw [textContentList_append, textContentList_append]
          simp only [sliceList]
        · exact Option.noConfusion h
      | cons j ep =>
        simp only [extractCore] at h
        split at h
        · rename_i hso
          split at h
          · rename_i c hc
            split at h
            · rename_i fc rc hs
              simp only [Option.some.injEq, Prod.mk.injEq] at h
              obtain ⟨h1, h2, h3⟩ := h
              subst h1; subst h2; subst h3
              simp only [textBefore, textAfter, textContent]
              have hjlt := lt_of_getElem?_some hc
              have hlen : (cs.take so).length = so := by
                rw [List.length_take]; omega
              have hb : (cs.take so ++ [rc] ++ cs.drop (j + 1)).take so = cs.take so := by
                rw [List.append_assoc]
                exact take_append_left_of_len (cs.take so) ([rc] ++ cs.drop (j + 1)) so hlen
              have ha : (cs.take so ++ [rc] ++ cs.drop (j + 1)).drop so
                  = [rc] ++ cs.drop (j + 1) := by
                rw [List.append_assoc]
                exact drop_append_left_of_len (cs.take so) ([rc] ++ cs.drop (j + 1)) so hlen
              rw [hb, ha]
              have hcs : cs = cs.take so ++ (sliceList cs so j ++ c :: cs.drop (j + 1)) := by
                conv_lhs => rw [← List.take_append_drop so cs]
                rw [drop_split_at cs so j (by omega), drop_cons_of_getElem?_some hc]
                simp [sliceList]
              conv_lhs => rw [hcs]
              rw [textContentList_append, textContentList_append]
              simp only [textContentList]
              rw [splitPrefix_text ep c fc rc eo hs, textContentList_append]
              simp only [textContentList]
              apply String.ext
              simp [String.data_append]
            · exact Option.noConfusion h
          · exact Option.noConfusion h
        · exact Option.noConfusion h
  | cons i sp ih =>
    cases n with
    | text s =>
      simp only [extractCore] at h
      exact Option.noConfusion h
    | elem t a al cs =>
      cases ep with
      | nil =>
        simp only [extractCore] at h
        split at h
        · rename_i hcond
          split at h
          · rename_i c hc
            split at h
            · rename_i rc fc hs
              simp only [Option.some.injEq, Prod.mk.injEq] at h
              obtain ⟨h1, h2, h3⟩ := h
              subst h1; subst h2; subst h3
              simp only [textBefore, textAfter, textContent]
              have hilt := lt_of_getElem?_some hc
              have hlen : (cs.take i).length = i := by
                rw [List.length_take]; omega
              rw [take_append_single (cs.take i) rc (cs.drop eo) i hlen]
              rw [drop_append_single (cs.take i) rc (cs.drop eo) i hlen]
              have hcs : cs = cs.take i ++ (c :: (sliceList cs (i + 1) eo ++ cs.drop eo)) := by
                conv_lhs => rw [← List.take_append_drop i cs]
                rw [drop_cons_of_getElem?_some hc,
                  drop_split_at cs (i + 1) eo (by omega : i + 1 ≤ eo)]
                simp [sliceList]
              conv_lhs => rw [hcs]
              rw [textContentList_append]
              simp only [textContentList]
              rw [textContentList_append, textContentList_append,
                splitSuffix_text sp c rc fc so hs]
              apply String.ext
              simp [String.data_append, textContentList]
            · exact Option.noConfusion h
          · exact Option.noConfusion h
        · exact Option.noConfusion h
      | cons j ep =>
        simp only [extractCore] at h
        split at h
        · rename_i hij
          subst hij
          split at h
          · rename_i c hc
            split at h
            · rename_i c2 frag2 pos2 hrec
              simp only [Option.some.injEq, Prod.mk.injEq] at h
              obtain ⟨h1, h2, h3⟩ := h
              subst h1; subst h2; subst h3
              have hilt := lt_of_getElem?_some hc
              simp only [textBefore, textAfter, textContent]
              rw [set_take_self, set_drop_succ, getElem?_set_self cs i c2 hilt]
              rw [tcl_split cs i c hc, ih c ep c2 frag2 pos2 hrec]
              apply String.ext
              simp [String.data_append]
            · exact Option.noConfusion h
          · exact Option.noConfusion h
        · rename_i hij
          split at h
          · rename_i hlt
            split at h
            · rename_i ci cj hci hcj
              split at h
              · rename_i ri fi fj rj hsi hsj
                simp only [Option.some.injEq, Prod.mk.injEq] at h
                obtain ⟨h1, h2, h3⟩ := h
                subst h1; subst h2; subst h3
                simp only [textBefore, textAfter, textContent]
                have hilt := lt_of_getElem?_some hci
                have hjlt := lt_of_getElem?_some hcj
                have hlen : (cs.take i).length = i := by
                  rw [List.length_take]; omega
                have hb : (cs.take i ++ [ri] ++ [rj] ++ cs.drop (j + 1)).take (i + 1)
                    = cs.take i ++ [ri] := by
                  have := take_append_single (cs.take i) ri ([rj] ++ cs.drop (j + 1)) i hlen
                  rwa [← List.append_assoc] at this
                have ha : (cs.take i ++ [ri] ++ [rj] ++ cs.drop (j + 1)).drop (i + 1)
                    = [rj] ++ cs.drop (j + 1) := by
                  have := drop_append_single (cs.take i) ri ([rj] ++ cs.drop (j + 1)) i hlen
                  rwa [← List.append_assoc] at this
                rw [hb, ha]
                have hcs : cs = cs.take i ++
                    (ci :: (sliceList cs (i + 1) j ++ cj :: cs.drop (j + 1))) := by
                  conv_lhs => rw [← List.take_append_drop i cs]
                  rw [drop_cons_of_getElem?_some hci,
                    drop_split_at cs (i + 1) j (by omega : i + 1 ≤ j),
                    drop_cons_of_getElem?_some hcj]
                  simp [sliceList]
                conv_lhs => rw [hcs]
                apply String.ext
                simp [textContentList_append, textContentList, String.data_append,
                  splitSuffix_text sp ci ri fi so hsi,
                  splitPrefix_text ep cj fj rj eo hsj]
              · exact Option.noConfusion h
            · exact Option.noConfusion h
          · exact Option.noConfusion h

mutual

theorem removeTagsNode_text (tag : String) : (n : DomNode) →
    textContentList (removeTagsNode tag n) = textContent n
  | .text s => by simp [removeTagsNode, textContentList, textContent]
  | .elem t a al cs => by
    simp only [removeTagsNode]
    split
    · rw [removeTagsList_text tag cs]
      rfl
    · simp only [textContentList, textContent]
      rw [removeTagsList_text tag cs]
      apply String.ext
      simp [String.data_append]

theorem removeTagsList_text (tag : String) : (cs : List DomNode) →
    textContentList (removeTagsList tag cs) = textContentList cs
  | [] => rfl
  | c :: cs => by
    simp only [removeTagsList, textContentList_append, removeTagsNode_text tag c,
      removeTagsList_text tag cs]
    rfl

end

mutual

theorem cleanupNode_text : (n : DomNode) → textContent (cleanupNode n) = textContent n
  | .text s => rfl
  | .elem t a al cs => by
    simp only [cleanupNode, textContent]
    exact cleanupList_text cs

theorem cleanupList_text : (cs : List DomNode) →
    textContentList (cleanupList cs) = textContentList cs
  | [] => rfl
  | c :: cs => by
    cases c with
    | text s =>
      simp only [cleanupList, textContentList]
      rw [cleanupList_text cs]
    | elem t a al cs2 =>
      simp only [cleanupList]
      split
      · rename_i hcond
        obtain ⟨hinline, hempty⟩ := hcond
        have hstr : textContent (.elem t a al cs2) = "" := by
          apply String.ext
          exact List.length_eq_zero.mp hempty
        rw [cleanupList_text cs]
        simp only [textContentList, hstr]
        apply String.ext
        simp [String.data_append]
      · simp only [textContentList]
        rw [cleanupNode_text (.elem t a al cs2), cleanupList_text cs]

end

theorem insertGo_text (p : DPath) (o : Nat) (n n2 : DomNode) (w : DomNode) (wp : DPath)
    (h : insertGo n p o w = some (n2, wp)) :
    textContent n2 = textBefore n p o ++ textContent w ++ textAfter n p o := by
  induction p generalizing n n2 wp with
  | nil =>
    cases n with
    | text s =>
      simp only [insertGo] at h
      exact Option.noConfusion h
    | elem t a al cs =>
      simp only [insertGo] at h
      split at h
      · rename_i ho
        simp only [Option.some.injEq, Prod.mk.injEq] at h
        obtain ⟨h1, h2⟩ := h
        subst h1
        simp only [textContent, textBefore, textAfter]
        rw [textContentList_append, textContentList_append]
        simp only [textContentList]
        apply String.ext
        simp [String.data_append]
      · exact Option.noConfusion h
  | cons i p ih =>
    cases n with
    | text s =>
      simp only [insertGo] at h
      exact Option.noConfusion h
    | elem t a al cs =>
      cases p with
      | nil =>
        simp only [insertGo] at h
        split at h
        · rename_i s2 hc
          split at h
          · rename_i ho
            simp only [Option.some.injEq, Prod.mk.injEq] at h
            obtain ⟨h1, h2⟩ := h
            subst h1
            simp only [textContent, textBefore, textAfter, hc]
            rw [textContentList_append, textContentList_append]
            simp only [textContentList, textContent]
            apply String.ext
            simp [String.data_append]
          · exact Option.noConfusion h
        · rename_i t2 a2 al2 cs2 hc
          split at h
          · rename_i ho
            simp only [Option.some.injEq, Prod.mk.injEq] at h
            obtain ⟨h1, h2⟩ := h
            subst h1
            simp only [textContent, textBefore, textAfter, hc]
            rw [tcl_set cs i (.elem t2 a2 al2 cs2) _ hc]
            simp only [textContent]
            rw [textContentList_append, textContentList_append]
            simp only [textContentList]
            apply String.ext
            simp [String.data_append]
          · exact Option.noConfusion h
        · exact Option.noConfusion h
      | cons p2 q =>
        simp only [insertGo] at h
        split at h
        · rename_i c hc
          split at h
          · rename_i c2 sub hrec
            simp only [Option.some.injEq, Prod.mk.injEq] at h
            obtain ⟨h1, h2⟩ := h
            subst h1
            simp only [textContent, textBefore, textAfter, hc]
            rw [tcl_set cs i c _ hc, ih c c2 sub hrec]
            apply String.ext
            simp [String.data_append]
          · exact Option.noConfusion h
        · exact Option.noConfusion h

theorem nodeAt_append (p : DPath) (root : DomNode) (q : DPath) :
    nodeAt root (p ++ q) = (nodeAt root p).bind (fun n => nodeAt n q) := by
  induction p generalizing root with
  | nil => simp [nodeAt]
  | cons i p ih =>
    cases root with
    | text s => simp [nodeAt]
    | elem t a al cs =>
      simp only [List.cons_append, nodeAt]
      cases hc : cs[i]? with
      | none => simp
      | some c => simp [ih c]

theorem updAt_characterize (p : DPath) (root root2 : DomNode) (f : DomNode → Option DomNode)
    (h : updAt root p f = some root2) :
    ∃ n n2, nodeAt root p = some n ∧ f n = some n2 ∧ root2 = replaceAt root p n2 := by
  induction p generalizing root root2 with
  | nil =>
    have hn : nodeAt root [] = some root := by cases root <;> rfl
    have hu : updAt root [] f = f root := by cases root <;> rfl
    rw [hu] at h
    have hr : replaceAt root [] root2 = root2 := by cases root <;> rfl
    exact ⟨root, root2, hn, h, hr.symm⟩
  | cons i p ih =>
    cases root with
    | text s =>
      simp only [updAt] at h
      exact Option.noConfusion h
    | elem t a al cs =>
      simp only [updAt] at h
      split at h
      · rename_i c hc
        split at h
        · rename_i c2 hrec
          simp only [Option.some.injEq] at h
          obtain ⟨n, n2, hn, hf, hrepl⟩ := ih c c2 hrec
          refine ⟨n, n2, ?_, hf, ?_⟩
          · simp [nodeAt, hc, hn]
          · rw [← h]
            simp [replaceAt, hc, hrepl]
        · exact Option.noConfusion h
      · exact Option.noConfusion h

theorem updAt_of_nodeAt (p : DPath) (root : DomNode) (n n2 : DomNode)
    (f : DomNode → Option DomNode) (hn : nodeAt root p = some n) (hf : f n = some n2) :
    updAt root p f = some (replaceAt root p n2) := by
  induction p generalizing root with
  | nil =>
    simp only [nodeAt, Option.some.injEq] at hn
    subst hn
    simp [updAt, replaceAt, hf]
  | cons i p ih =>
    cases root with
    | text s => simp [nodeAt] at hn
    | elem t a al cs =>
      simp only [nodeAt] at hn
      cases hc : cs[i]? with
      | none => rw [hc] at hn; exact Option.noConfusion hn
      | some c =>
        rw [hc] at hn
        simp [updAt, hc, ih c hn, replaceAt]

theorem tc_split_path (p : DPath) (root n : DomNode) (hn : nodeAt root p = some n) :
    textContent root = textBeforePath root p ++ textContent n ++ textAfterPath root p := by
  induction p generalizing root with
  | nil =>
    simp only [nodeAt, Option.some.injEq] at hn
    subst hn
    simp [textBeforePath, textAfterPath]
  | cons i p ih =>
    cases root with
    | text s => simp [nodeAt] at hn
    | elem t a al cs =>
      simp only [nodeAt] at hn
      cases hc : cs[i]? with
      | none => rw [hc] at hn; exact Option.noConfusion hn
      | some c =>
        rw [hc] at hn
        simp only [textContent, textBeforePath, textAfterPath, hc]
        rw [tcl_split cs i c hc, ih c hn]
        apply String.ext
        simp [String.data_append]

theorem tc_replaceAt (p : DPath) (root n n2 : DomNode) (hn : nodeAt root p = some n) :
    textContent (replaceAt root p n2) =
      textBeforePath root p ++ textContent n2 ++ textAfterPath root p := by
  induction p generalizing root with
  | nil => simp [replaceAt, textBeforePath, textAfterPath]
  | cons i p ih =>
    cases root with
    | text s => simp [nodeAt] at hn
    | elem t a al cs =>
      simp only [nodeAt] at hn
      cases hc : cs[i]? with
      | none => rw [hc] at hn; exact Option.noConfusion hn
      | some c =>
        rw [hc] at hn
        simp only [replaceAt, textContent, textBeforePath, textAfterPath, hc]
        rw [tcl_set cs i c _ hc, ih c hn]
        apply String.ext
        simp [String.data_append]

theorem nodeAt_replaceAt_self (p : DPath) (root n n2 : DomNode)
    (hn : nodeAt root p = some n) : nodeAt (replaceAt root p n2) p = some n2 := by
  induction p generalizing root with
  | nil => simp [replaceAt, nodeAt]
  | cons i p ih =>
    cases root with
    | text s => simp [nodeAt] at hn
    | elem t a al cs =>
      simp only [nodeAt] at hn
      cases hc : cs[i]? with
      | none => rw [hc] at hn; exact Option.noConfusion hn
      | some c =>
        rw [hc] at hn
        have hilt := lt_of_getElem?_some hc
        simp [replaceAt, nodeAt, hc, getElem?_set_self _ _ _ hilt, ih c hn]

theorem replaceAt_replaceAt (p : DPath) (root n x y : DomNode)
    (hn : nodeAt root p = some n) :
    replaceAt (replaceAt root p x) p y = replaceAt root p y := by
  induction p generalizing root with
  | nil => simp [replaceAt]
  | cons i p ih =>
    cases root with
    | text s => simp [nodeAt] at hn
    | elem t a al cs =>
      simp only [nodeAt] at hn
      cases hc : cs[i]? with
      | none => rw [hc] at hn; exact Option.noConfusion hn
      | some c =>
        rw [hc] at hn
        have hilt := lt_of_getElem?_some hc
        simp [replaceAt, hc, getElem?_set_self _ _ _ hilt, ih c hn, List.set_set]

theorem replaceAt_snoc (pp : DPath) (root : DomNode) (t : String)
    (a : List (String × String)) (al : Option String) (cs : List DomNode) (i : Nat)
    (c x : DomNode) (rest : DPath)
    (hn : nodeAt root pp = some (.elem t a al cs)) (hc : cs[i]? = some c) :
    replaceAt root (pp ++ i :: rest) x =
      replaceAt root pp (.elem t a al (cs.set i (replaceAt c rest x))) := by
  induction pp generalizing root with
  | nil =>
    simp only [nodeAt, Option.some.injEq] at hn
    subst hn
    simp [replaceAt, hc]
  | cons k pp ih =>
    cases root with
    | text s => simp [nodeAt] at hn
    | elem t2 a2 al2 cs2 =>
      simp only [nodeAt] at hn
      cases hk : cs2[k]? with
      | none => rw [hk] at hn; exact Option.noConfusion hn
      | some ck =>
        rw [hk] at hn
        simp [replaceAt, hk, ih ck hn]

theorem updChildren_text (root root2 : DomNode) (p : DPath)
    (f : List DomNode → Option (List DomNode))
    (hf : ∀ cs cs2, f cs = some cs2 → textContentList cs2 = textContentList cs)
    (h : updChildren root p f = some root2) : textContent root2 = textContent root := by
  simp only [updChildren] at h
  obtain ⟨n, n2, hn, hfn, hrepl⟩ := updAt_characterize _ _ _ _ h
  cases n with
  | text s => simp at hfn
  | elem t a al cs =>
    simp only at hfn
    cases hcs : f cs with
    | none => rw [hcs] at hfn; exact Option.noConfusion hfn
    | some cs2 =>
      rw [hcs] at hfn
      simp only [Option.some.injEq] at hfn
      subst hrepl
      rw [← hfn, tc_replaceAt p root (DomNode.elem t a al cs) _ hn,
        tc_split_path p root (DomNode.elem t a al cs) hn]
      simp only [textContent]
      rw [hf cs cs2 hcs]

theorem unwrapAt_text (root root2 : DomNode) (p : DPath)
    (h : unwrapAt root p = some root2) : textContent root2 = textContent root := by
  simp only [unwrapAt] at h
  split at h
  · exact Option.noConfusion h
  · rename_i i hlast
    apply updChildren_text _ _ _ _ _ h
    intro cs cs2 hcs
    cases hc : cs[i]? with
    | none => rw [hc] at hcs; exact Option.noConfusion hcs
    | some c =>
      rw [hc] at hcs
      cases c with
      | text s => exact Option.noConfusion hcs
      | elem t a al inner =>
        simp only [Option.some.injEq] at hcs
        subst hcs
        rw [textContentList_append, textContentList_append, tcl_split cs i _ hc]
        simp only [textContent]

theorem unwrapSelection_text (tagName : String) (sel : Option DomRange) (root : DomNode) :
    textContent (unwrapSelection tagName sel root).fst = textContent root := by
  simp only [unwrapSelection]
  split
  · rfl
  · rename_i r
    split
    · rfl
    · rename_i ap hap
      split
      all_goals try rfl
      exact unwrapAt_text _ _ _ (by assumption)

theorem wrapRange_text (root : DomNode) (r : DomRange) (tagName : String)
    (attrs : List (String × String)) (t3 : DomNode) (wpath : DPath) (w : DomNode)
    (h : wrapRange root r tagName attrs = some (t3, wpath, w)) :
    textContent t3 = textContent root := by
  simp only [wrapRange] at h
  split at h
  · exact Option.noConfusion h
  · rename_i t1 frag pos hext
    split at h
    · exact Option.noConfusion h
    · rename_i t2 wpath2 hins
      split at h
      · exact Option.noConfusion h
      · rename_i t3b hupd
        simp only [Option.some.injEq, Prod.mk.injEq] at h
        obtain ⟨h1, h2, h3⟩ := h
        subst h1
        have hx := extractCore_text r.startPos.path r.startPos.off r.endPos.off root
          r.endPos.path t1 frag pos hext
        have hins2 : insertGo t1 pos.path pos.off
            (.elem (upperTag tagName) attrs none (removeTagsList (upperTag tagName) frag))
            = some (t2, wpath2) := hins
        have hi := insertGo_text pos.path pos.off t1 t2 _ wpath2 hins2
        obtain ⟨n, n2, hn, hfn, hrepl⟩ := updAt_characterize _ _ _ _ hupd
        simp only [Option.some.injEq] at hfn
        subst hrepl
        rw [← hfn, tc_replaceAt _ t2 n _ hn, cleanupNode_text n, ← tc_split_path _ t2 n hn,
          hi]
        simp only [textContent]
        rw [removeTagsList_text, hx]

theorem perBlockStep_text (tagName : String) (attrs : List (String × String))
    (blocks : List DPath) (nBlocks : Nat) (r : DomRange) (i : Nat) (tree t2 : DomNode)
    (firstW lastW fw lw : Option DPath)
    (h : perBlockStep tagName attrs blocks nBlocks r i tree firstW lastW = some (t2, fw, lw)) :
    textContent t2 = textContent tree := by
  simp only [perBlockStep] at h
  split at h
  · exact Option.noConfusion h
  · rename_i br hbr
    split at h
    · simp only [Option.some.injEq, Prod.mk.injEq] at h
      obtain ⟨h1, _, _⟩ := h
      subst h1
      rfl
    · split at h
      · exact Option.noConfusion h
      · rename_i t2b wpath wb hwrap
        simp only [Option.some.injEq, Prod.mk.injEq] at h
        obtain ⟨h1, _, _⟩ := h
        subst h1
        exact wrapRange_text tree br tagName attrs t2b wpath wb hwrap

theorem perBlockGo_text (tagName : String) (attrs : List (String × String))
    (blocks : List DPath) (nBlocks : Nat) (r : DomRange) (i : Nat) (tree t2 : DomNode)
    (firstW lastW fw lw : Option DPath)
    (h : perBlockGo tagName attrs blocks nBlocks r i tree firstW lastW = some (t2, fw, lw)) :
    textContent t2 = textContent tree := by
  induction i generalizing tree firstW lastW t2 fw lw with
  | zero =>
    exact perBlockStep_text tagName attrs blocks nBlocks r 0 tree t2 firstW lastW fw lw h
  | succ k ih =>
    simp only [perBlockGo] at h
    split at h
    · exact Option.noConfusion h
    · rename_i mid tm fwm lwm hstep
      rw [ih _ _ _ _ _ _ h]
      exact perBlockStep_text tagName attrs blocks nBlocks r (k + 1) tree tm firstW lastW
        fwm lwm hstep

theorem wrapSelectionPerBlock_text (tagName : String) (attrs : List (String × String))
    (sel : Option DomRange) (root : DomNode) (t2 : DomNode) (s2 : Option DomRange)
    (h : wrapSelectionPerBlock tagName attrs sel root = some (t2, s2)) :
    textContent t2 = textContent root := by
  simp only [wrapSelectionPerBlock] at h
  split at h
  · simp only [Option.some.injEq, Prod.mk.injEq] at h
    obtain ⟨h1, _⟩ := h
    subst h1
    rfl
  · rename_i r
    split at h
    · simp only [Option.some.injEq, Prod.mk.injEq] at h
      obtain ⟨h1, _⟩ := h
      subst h1
      rfl
    · split at h
      · split at h
        · exact Option.noConfusion h
        · rename_i t1 wpath wb hwrap
          simp only [Option.some.injEq, Prod.mk.injEq] at h
          obtain ⟨h1, _⟩ := h
          subst h1
          exact wrapRange_text root r tagName attrs t1 wpath wb hwrap
      · split at h
        · exact Option.noConfusion h
        · rename_i tg fw lw hgo
          simp only [Option.some.injEq, Prod.mk.injEq] at h
          obtain ⟨h1, _⟩ := h
          subst h1
          exact perBlockGo_text _ _ _ _ _ _ root tg _ _ _ _ hgo
        · rename_i tg fst1 snd1 hcon hgo
          simp only [Option.some.injEq, Prod.mk.injEq] at h
          obtain ⟨h1, _⟩ := h
          subst h1
          exact perBlockGo_text _ _ _ _ _ _ root tg _ _ _ _ hgo

theorem getElem?_append_cons_self {α : Type} (a : List α) (y : α) (rest : List α) :
    (a ++ y :: rest)[a.length]? = some y := by
  rw [List.getElem?_append_right (le_refl a.length)]
  simp

theorem getElem?_append_cons_of_len {α : Type} (a : List α) (y : α) (rest : List α)
    (i : Nat) (h : a.length = i) : (a ++ y :: rest)[i]? = some y := by
  subst h
  exact getElem?_append_cons_self a y rest


theorem set_append_cons_self {α : Type} (a : List α) (y x : α) (rest : List α) :
    (a ++ y :: rest).set a.length x = a ++ x :: rest := by
  induction a with
  | nil => simp
  | cons z zs ih => simp [ih]

theorem set_append_cons_of_len {α : Type} (a : List α) (y x : α) (rest : List α)
    (i : Nat) (h : a.length = i) : (a ++ y :: rest).set i x = a ++ x :: rest := by
  subst h
  exact set_append_cons_self a y x rest

theorem updChildren_of_nodeAt (root : DomNode) (p : DPath) (t : String)
    (a : List (String × String)) (al : Option String) (cs cs2 : List DomNode)
    (f : List DomNode → Option (List DomNode))
    (hn : nodeAt root p = some (.elem t a al cs)) (hf : f cs = some cs2) :
    updChildren root p f = some (replaceAt root p (.elem t a al cs2)) := by
  apply updAt_of_nodeAt p root _ _ _ hn
  simp [hf]

theorem extractListItem_spec_only (root : DomNode) (pp : DPath) (li : Nat) (ltag : String)
    (pt lt : String) (pa la : List (String × String)) (pal lal : Option String)
    (pcs lcs : List DomNode) (bi : Nat) (newBlock : DomNode)
    (hpp : nodeAt root pp = some (.elem pt pa pal pcs))
    (hli : pcs[li]? = some (.elem lt la lal lcs))
    (h1 : elemCount lcs = 1) :
    extractListItem root (pp ++ [li]) li ltag lcs bi newBlock =
      some (replaceAt root pp (.elem pt pa pal (pcs.set li newBlock)), pp ++ [li]) := by
  have hnlp : nodeAt root (pp ++ [li]) = some (.elem lt la lal lcs) := by
    rw [nodeAt_append]
    simp [hpp, nodeAt, hli]
  simp only [extractListItem, if_pos h1]
  rw [updAt_of_nodeAt (pp ++ [li]) root _ newBlock _ hnlp rfl]
  rw [replaceAt_snoc pp root pt pa pal pcs li _ newBlock [] hpp hli]
  simp [replaceAt]

theorem extractListItem_spec_first (root : DomNode) (pp : DPath) (li : Nat) (ltag : String)
    (pt lt : String) (pa la : List (String × String)) (pal lal : Option String)
    (pcs lcs : List DomNode) (bi : Nat) (newBlock : DomNode)
    (hpp : nodeAt root pp = some (.elem pt pa pal pcs))
    (hli : pcs[li]? = some (.elem lt la lal lcs))
    (h1 : ¬elemCount lcs = 1) (h2 : elemIndexAmong lcs bi = 0) :
    extractListItem root (pp ++ [li]) li ltag lcs bi newBlock =
      some (replaceAt root pp (.elem pt pa pal
        (pcs.take li ++
          [newBlock, .elem lt la lal (lcs.take bi ++ lcs.drop (bi + 1))] ++
          pcs.drop (li + 1))), pp ++ [li]) := by
  have hliLt := lt_of_getElem?_some hli
  have hA : (pcs.take li).length = li := by rw [List.length_take]; omega
  have hdrop : pcs.drop li = (.elem lt la lal lcs) :: pcs.drop (li + 1) :=
    drop_cons_of_getElem?_some hli
  have hpcsA : pcs.take li ++ [newBlock] ++ pcs.drop li =
      (pcs.take li ++ [newBlock]) ++ (.elem lt la lal lcs) :: pcs.drop (li + 1) := by
    rw [hdrop, List.append_assoc]
  have hAB : (pcs.take li ++ [newBlock]).length = li + 1 := by simp [hA]
  have hstep1 : updChildren root pp
      (fun cs => some (cs.take li ++ [newBlock] ++ cs.drop li)) =
      some (replaceAt root pp (.elem pt pa pal (pcs.take li ++ [newBlock] ++ pcs.drop li))) :=
    updChildren_of_nodeAt root pp pt pa pal pcs _ _ hpp rfl
  have hX1 : nodeAt (replaceAt root pp
      (.elem pt pa pal (pcs.take li ++ [newBlock] ++ pcs.drop li))) pp =
      some (.elem pt pa pal (pcs.take li ++ [newBlock] ++ pcs.drop li)) :=
    nodeAt_replaceAt_self pp root _ _ hpp
  have hchild : (pcs.take li ++ [newBlock] ++ pcs.drop li)[li + 1]? =
      some (.elem lt la lal lcs) := by
    rw [hpcsA, ← hAB]
    exact getElem?_append_cons_self _ _ _
  have hn2 : nodeAt (replaceAt root pp
      (.elem pt pa pal (pcs.take li ++ [newBlock] ++ pcs.drop li))) (pp ++ [li + 1]) =
      some (.elem lt la lal lcs) := by
    rw [nodeAt_append, hX1]
    show nodeAt (.elem pt pa pal (pcs.take li ++ [newBlock] ++ pcs.drop li)) [li + 1] =
      some (.elem lt la lal lcs)
    simp only [nodeAt]
    rw [hchild]
  have hstep2 : updChildren (replaceAt root pp
      (.elem pt pa pal (pcs.take li ++ [newBlock] ++ pcs.drop li))) (pp ++ [li + 1])
      (fun cs => some (cs.take bi ++ cs.drop (bi + 1))) =
      some (replaceAt (replaceAt root pp
        (.elem pt pa pal (pcs.take li ++ [newBlock] ++ pcs.drop li))) (pp ++ [li + 1])
        (.elem lt la lal (lcs.take bi ++ lcs.drop (bi + 1)))) :=
    updChildren_of_nodeAt _ _ lt la lal lcs _ _ hn2 rfl
  have hcollapse : replaceAt (replaceAt root pp
      (.elem pt pa pal (pcs.take li ++ [newBlock] ++ pcs.drop li))) (pp ++ [li + 1])
      (.elem lt la lal (lcs.take bi ++ lcs.drop (bi + 1))) =
      replaceAt root pp (.elem pt pa pal
        (pcs.take li ++
          [newBlock, .elem lt la lal (lcs.take bi ++ lcs.drop (bi + 1))] ++
          pcs.drop (li + 1))) := by
    rw [replaceAt_snoc pp _ pt pa pal (pcs.take li ++ [newBlock] ++ pcs.drop li) (li + 1)
      (.elem lt la lal lcs) (.elem lt la lal (lcs.take bi ++ lcs.drop (bi + 1))) [] hX1 hchild,
      replaceAt_replaceAt pp root _ _ _ hpp]
    have hset : (pcs.take li ++ [newBlock] ++ pcs.drop li).set (li + 1)
        (replaceAt (.elem lt la lal lcs) [] (.elem lt la lal (lcs.take bi ++ lcs.drop (bi + 1))))
        = pcs.take li ++
          [newBlock, .elem lt la lal (lcs.take bi ++ lcs.drop (bi + 1))] ++
          pcs.drop (li + 1) := by
      rw [show replaceAt (.elem lt la lal lcs) []
          (.elem lt la lal (lcs.take bi ++ lcs.drop (bi + 1))) =
          (.elem lt la lal (lcs.take bi ++ lcs.drop (bi + 1)) : DomNode) from rfl]
      rw [hpcsA, ← hAB, set_append_cons_self]
      simp [List.append_assoc]
    rw [hset]
  simp only [extractListItem, List.dropLast_concat, if_neg h1, if_pos h2, hstep1, hstep2,
    hcollapse]

theorem extractListItem_spec_last (root : DomNode) (pp : DPath) (li : Nat) (ltag : String)
    (pt lt : String) (pa la : List (String × String)) (pal lal : Option String)
    (pcs lcs : List DomNode) (bi : Nat) (newBlock : DomNode)
    (hpp : nodeAt root pp = some (.elem pt pa pal pcs))
    (hli : pcs[li]? = some (.elem lt la lal lcs))
    (h1 : ¬elemCount lcs = 1) (h2 : ¬elemIndexAmong lcs bi = 0)
    (h3 : elemIndexAmong lcs bi = elemCount lcs - 1) :
    extractListItem root (pp ++ [li]) li ltag lcs bi newBlock =
      some (replaceAt root pp (.elem pt pa pal
        (pcs.take li ++
          [.elem lt la lal (lcs.take bi ++ lcs.drop (bi + 1)), newBlock] ++
          pcs.drop (li + 1))), pp ++ [li + 1]) := by
  have hliLt := lt_of_getElem?_some hli
  have hA : (pcs.take li).length = li := by rw [List.length_take]; omega
  have hgv : pcs[li] = .elem lt la lal lcs := by
    rw [List.getElem?_eq_getElem hliLt] at hli
    exact Option.some.inj hli
  have htake : pcs.take (li + 1) = pcs.take li ++ [DomNode.elem lt la lal lcs] := by
    rw [← List.take_concat_get' pcs li hliLt, hgv]
  have hpcsB : pcs.take (li + 1) ++ [newBlock] ++ pcs.drop (li + 1) =
      pcs.take li ++ (DomNode.elem lt la lal lcs) :: ([newBlock] ++ pcs.drop (li + 1)) := by
    rw [htake]
    simp [List.append_assoc]
  have hstep1 : updChildren root pp
      (fun cs => some (cs.take (li + 1) ++ [newBlock] ++ cs.drop (li + 1))) =
      some (replaceAt root pp
        (.elem pt pa pal (pcs.take (li + 1) ++ [newBlock] ++ pcs.drop (li + 1)))) :=
    updChildren_of_nodeAt root pp pt pa pal pcs _ _ hpp rfl
  have hX1 : nodeAt (replaceAt root pp
      (.elem pt pa pal (pcs.take (li + 1) ++ [newBlock] ++ pcs.drop (li + 1)))) pp =
      some (.elem pt pa pal (pcs.take (li + 1) ++ [newBlock] ++ pcs.drop (li + 1))) :=
    nodeAt_replaceAt_self pp root _ _ hpp
  have hchild : (pcs.take (li + 1) ++ [newBlock] ++ pcs.drop (li + 1))[li]? =
      some (.elem lt la lal lcs) := by
    rw [hpcsB]
    exact getElem?_append_cons_of_len _ _ _ li hA
  have hn2 : nodeAt (replaceAt root pp
      (.elem pt pa pal (pcs.take (li + 1) ++ [newBlock] ++ pcs.drop (li + 1)))) (pp ++ [li]) =
      some (.elem lt la lal lcs) := by
    rw [nodeAt_append, hX1]
    show nodeAt (.elem pt pa pal (pcs.take (li + 1) ++ [newBlock] ++ pcs.drop (li + 1))) [li] =
      some (.elem lt la lal lcs)
    simp only [nodeAt]
    rw [hchild]
  have hstep2 : updChildren (replaceAt root pp
      (.elem pt pa pal (pcs.take (li + 1) ++ [newBlock] ++ pcs.drop (li + 1)))) (pp ++ [li])
      (fun cs => some (cs.take bi ++ cs.drop (bi + 1))) =
      some (replaceAt (replaceAt root pp
        (.elem pt pa pal (pcs.take (li + 1) ++ [newBlock] ++ pcs.drop (li + 1)))) (pp ++ [li])
        (.elem lt la lal (lcs.take bi ++ lcs.drop (bi + 1)))) :=
    updChildren_of_nodeAt _ _ lt la lal lcs _ _ hn2 rfl
  have hcollapse : replaceAt (replaceAt root pp
      (.elem pt pa pal (pcs.take (li + 1) ++ [newBlock] ++ pcs.drop (li + 1)))) (pp ++ [li])
      (.elem lt la lal (lcs.take bi ++ lcs.drop (bi + 1))) =
      replaceAt root pp (.elem pt pa pal
        (pcs.take li ++
          [.elem lt la lal (lcs.take bi ++ lcs.drop (bi + 1)), newBlock] ++
          pcs.drop (li + 1))) := by
    rw [replaceAt_snoc pp _ pt pa pal (pcs.take (li + 1) ++ [newBlock] ++ pcs.drop (li + 1)) li
      (.elem lt la lal lcs) (.elem lt la lal (lcs.take bi ++ lcs.drop (bi + 1))) [] hX1 hchild,
      replaceAt_replaceAt pp root _ _ _ hpp]
    have hset : (pcs.take (li + 1) ++ [newBlock] ++ pcs.drop (li + 1)).set li
        (replaceAt (.elem lt la lal lcs) [] (.elem lt la lal (lcs.take bi ++ lcs.drop (bi + 1))))
        = pcs.take li ++
          [.elem lt la lal (lcs.take bi ++ lcs.drop (bi + 1)), newBlock] ++
          pcs.drop (li + 1) := by
      rw [show replaceAt (.elem lt la lal lcs) []
          (.elem lt la lal (lcs.take bi ++ lcs.drop (bi + 1))) =
          (.elem lt la lal (lcs.take bi ++ lcs.drop (bi + 1)) : DomNode) from rfl]
      rw [hpcsB, set_append_cons_of_len _ _ _ _ li hA]
      simp [List.append_assoc]
    rw [hset]
  simp only [extractListItem, List.dropLast_concat, if_neg h1, if_neg h2, if_pos h3, hstep1,
    hstep2, hcollapse]

theorem extractListItem_spec_middle (root : DomNode) (pp : DPath) (li : Nat) (ltag : String)
    (pt lt : String) (pa la : List (String × String)) (pal lal : Option String)
    (pcs lcs : List DomNode) (bi : Nat) (newBlock : DomNode)
    (hpp : nodeAt root pp = some (.elem pt pa pal pcs))
    (hli : pcs[li]? = some (.elem lt la lal lcs))
    (h1 : ¬elemCount lcs = 1) (h2 : ¬elemIndexAmong lcs bi = 0)
    (h3 : ¬elemIndexAmong lcs bi = elemCount lcs - 1) :
    extractListItem root (pp ++ [li]) li ltag lcs bi newBlock =
      some (replaceAt root pp (.elem pt pa pal
        (pcs.take li ++
          [.elem lt la lal (lcs.take bi), newBlock, .elem ltag [] none (lcs.drop (bi + 1))] ++
          pcs.drop (li + 1))), pp ++ [li + 1]) := by
  have hliLt := lt_of_getElem?_some hli
  have hA : (pcs.take li).length = li := by rw [List.length_take]; omega
  have hnlp : nodeAt root (pp ++ [li]) = some (.elem lt la lal lcs) := by
    rw [nodeAt_append]
    simp [hpp, nodeAt, hli]
  have hpcs1 : pcs.set li (DomNode.elem lt la lal (lcs.take (bi + 1))) =
      pcs.take li ++ (DomNode.elem lt la lal (lcs.take (bi + 1))) :: pcs.drop (li + 1) := by
    rw [List.set_eq_take_append_cons_drop, if_pos hliLt]
  have hlen1 : (pcs.take li ++ [DomNode.elem lt la lal (lcs.take (bi + 1))]).length = li + 1 := by
    simp [hA]
  have hpcs1take : (pcs.set li (DomNode.elem lt la lal (lcs.take (bi + 1)))).take (li + 1) =
      pcs.take li ++ [DomNode.elem lt la lal (lcs.take (bi + 1))] := by
    rw [hpcs1, List.append_cons]
    exact take_append_left_of_len _ _ _ hlen1
  have hpcs1drop : (pcs.set li (DomNode.elem lt la lal (lcs.take (bi + 1)))).drop (li + 1) =
      pcs.drop (li + 1) := by
    rw [hpcs1, List.append_cons]
    exact drop_append_left_of_len _ _ _ hlen1
  have hstep1 : updAt root (pp ++ [li])
      (fun n => match n with
        | .elem t a al _ => some (.elem t a al (lcs.take (bi + 1)))
        | _ => none) =
      some (replaceAt root (pp ++ [li]) (.elem lt la lal (lcs.take (bi + 1)))) :=
    updAt_of_nodeAt (pp ++ [li]) root _ _ _ hnlp rfl
  have hsnoc1 : replaceAt root (pp ++ [li]) (.elem lt la lal (lcs.take (bi + 1))) =
      replaceAt root pp (.elem pt pa pal
        (pcs.set li (DomNode.elem lt la lal (lcs.take (bi + 1))))) := by
    rw [replaceAt_snoc pp root pt pa pal pcs li (.elem lt la lal lcs)
      (.elem lt la lal (lcs.take (bi + 1))) [] hpp hli]
    rfl
  have hX1 : nodeAt (replaceAt root pp (.elem pt pa pal
      (pcs.set li (DomNode.elem lt la lal (lcs.take (bi + 1)))))) pp =
      some (.elem pt pa pal (pcs.set li (DomNode.elem lt la lal (lcs.take (bi + 1))))) :=
    nodeAt_replaceAt_self pp root _ _ hpp
  have hstep2 : updChildren (replaceAt root pp (.elem pt pa pal
      (pcs.set li (DomNode.elem lt la lal (lcs.take (bi + 1)))))) pp
      (fun cs => some (cs.take (li + 1) ++ [newBlock] ++ cs.drop (li + 1))) =
      some (replaceAt (replaceAt root pp (.elem pt pa pal
        (pcs.set li (DomNode.elem lt la lal (lcs.take (bi + 1)))))) pp
        (.elem pt pa pal
          ((pcs.take li ++ [DomNode.elem lt la lal (lcs.take (bi + 1))]) ++ [newBlock] ++
            pcs.drop (li + 1)))) := by
    apply updChildren_of_nodeAt _ _ pt pa pal _ _ _ hX1
    rw [hpcs1take, hpcs1drop]
  have hcol2 : replaceAt (replaceAt root pp (.elem pt pa pal
      (pcs.set li (DomNode.elem lt la lal (lcs.take (bi + 1)))))) pp
      (.elem pt pa pal
        ((pcs.take li ++ [DomNode.elem lt la lal (lcs.take (bi + 1))]) ++ [newBlock] ++
          pcs.drop (li + 1))) =
      replaceAt root pp (.elem pt pa pal
        ((pcs.take li ++ [DomNode.elem lt la lal (lcs.take (bi + 1))]) ++ [newBlock] ++
          pcs.drop (li + 1))) :=
    replaceAt_replaceAt pp root _ _ _ hpp
  have hlen2 : ((pcs.take li ++ [DomNode.elem lt la lal (lcs.take (bi + 1))]) ++
      [newBlock]).length = li + 2 := by
    simp [hA]
  have hX2 : nodeAt (replaceAt root pp (.elem pt pa pal
      ((pcs.take li ++ [DomNode.elem lt la lal (lcs.take (bi + 1))]) ++ [newBlock] ++
        pcs.drop (li + 1)))) pp =
      some (.elem pt pa pal
        ((pcs.take li ++ [DomNode.elem lt la lal (lcs.take (bi + 1))]) ++ [newBlock] ++
          pcs.drop (li + 1))) :=
    nodeAt_replaceAt_self pp root _ _ hpp
  have hstep3 : updChildren (replaceAt root pp (.elem pt pa pal
      ((pcs.take li ++ [DomNode.elem lt la lal (lcs.take (bi + 1))]) ++ [newBlock] ++
        pcs.drop (li + 1)))) pp
      (fun cs => some (cs.take (li + 2) ++ [.elem ltag [] none (lcs.drop (bi + 1))] ++
        cs.drop (li + 2))) =
      some (replaceAt (replaceAt root pp (.elem pt pa pal
        ((pcs.take li ++ [DomNode.elem lt la lal (lcs.take (bi + 1))]) ++ [newBlock] ++
          pcs.drop (li + 1)))) pp
        (.elem pt pa pal
          (((pcs.take li ++ [DomNode.elem lt la lal (lcs.take (bi + 1))]) ++ [newBlock]) ++
            [DomNode.elem ltag [] none (lcs.drop (bi + 1))] ++ pcs.drop (li + 1)))) := by
    apply updChildren_of_nodeAt _ _ pt pa pal _ _ _ hX2
    rw [take_append_left_of_len _ _ _ hlen2, drop_append_left_of_len _ _ _ hlen2]
  have hcol3 : replaceAt (replaceAt root pp (.elem pt pa pal
      ((pcs.take li ++ [DomNode.elem lt la lal (lcs.take (bi + 1))]) ++ [newBlock] ++
        pcs.drop (li + 1)))) pp
      (.elem pt pa pal
        (((pcs.take li ++ [DomNode.elem lt la lal (lcs.take (bi + 1))]) ++ [newBlock]) ++
          [DomNode.elem ltag [] none (lcs.drop (bi + 1))] ++ pcs.drop (li + 1))) =
      replaceAt root pp (.elem pt pa pal
        (((pcs.take li ++ [DomNode.elem lt la lal (lcs.take (bi + 1))]) ++ [newBlock]) ++
          [DomNode.elem ltag [] none (lcs.drop (bi + 1))] ++ pcs.drop (li + 1))) :=
    replaceAt_replaceAt pp root _ _ _ hpp
  have hpcs3eq : ((pcs.take li ++ [DomNode.elem lt la lal (lcs.take (bi + 1))]) ++ [newBlock]) ++
      [DomNode.elem ltag [] none (lcs.drop (bi + 1))] ++ pcs.drop (li + 1) =
      pcs.take li ++ (DomNode.elem lt la lal (lcs.take (bi + 1))) ::
        ([newBlock] ++ [DomNode.elem ltag [] none (lcs.drop (bi + 1))] ++ pcs.drop (li + 1)) := by
    simp [List.append_assoc]
  have hchild3 : (((pcs.take li ++ [DomNode.elem lt la lal (lcs.take (bi + 1))]) ++ [newBlock]) ++
      [DomNode.elem ltag [] none (lcs.drop (bi + 1))] ++ pcs.drop (li + 1))[li]? =
      some (DomNode.elem lt la lal (lcs.take (bi + 1))) := by
    rw [hpcs3eq]
    exact getElem?_append_cons_of_len _ _ _ li hA
  have hX3 : nodeAt (replaceAt root pp (.elem pt pa pal
      (((pcs.take li ++ [DomNode.elem lt la lal (lcs.take (bi + 1))]) ++ [newBlock]) ++
        [DomNode.elem ltag [] none (lcs.drop (bi + 1))] ++ pcs.drop (li + 1)))) pp =
      some (.elem pt pa pal
        (((pcs.take li ++ [DomNode.elem lt la lal (lcs.take (bi + 1))]) ++ [newBlock]) ++
          [DomNode.elem ltag [] none (lcs.drop (bi + 1))] ++ pcs.drop (li + 1))) :=
    nodeAt_replaceAt_self pp root _ _ hpp
  have hn4 : nodeAt (replaceAt root pp (.elem pt pa pal
      (((pcs.take li ++ [DomNode.elem lt la lal (lcs.take (bi + 1))]) ++ [newBlock]) ++
        [DomNode.elem ltag [] none (lcs.drop (bi + 1))] ++ pcs.drop (li + 1)))) (pp ++ [li]) =
      some (DomNode.elem lt la lal (lcs.take (bi + 1))) := by
    rw [nodeAt_append, hX3]
    show nodeAt (.elem pt pa pal
      (((pcs.take li ++ [DomNode.elem lt la lal (lcs.take (bi + 1))]) ++ [newBlock]) ++
        [DomNode.elem ltag [] none (lcs.drop (bi + 1))] ++ pcs.drop (li + 1))) [li] =
      some (DomNode.elem lt la lal (lcs.take (bi + 1)))
    simp only [nodeAt]
    rw [hchild3]
  have hf4 : (lcs.take (bi + 1)).take bi ++ (lcs.take (bi + 1)).drop (bi + 1) = lcs.take bi := by
    rw [List.take_take, Nat.min_eq_left (by omega),
      List.drop_eq_nil_of_le (List.length_take_le _ _), List.append_nil]
  have hstep4 : updChildren (replaceAt root pp (.elem pt pa pal
      (((pcs.take li ++ [DomNode.elem lt la lal (lcs.take (bi + 1))]) ++ [newBlock]) ++
        [DomNode.elem ltag [] none (lcs.drop (bi + 1))] ++ pcs.drop (li + 1)))) (pp ++ [li])
      (fun cs => some (cs.take bi ++ cs.drop (bi + 1))) =
      some (replaceAt (replaceAt root pp (.elem pt pa pal
        (((pcs.take li ++ [DomNode.elem lt la lal (lcs.take (bi + 1))]) ++ [newBlock]) ++
          [DomNode.elem ltag [] none (lcs.drop (bi + 1))] ++ pcs.drop (li + 1)))) (pp ++ [li])
        (.elem lt la lal (lcs.take bi))) := by
    apply updChildren_of_nodeAt _ _ lt la lal (lcs.take (bi + 1)) _ _ hn4
    rw [hf4]
  have hsnoc4 : replaceAt (replaceAt root pp (.elem pt pa pal
      (((pcs.take li ++ [DomNode.elem lt la lal (lcs.take (bi + 1))]) ++ [newBlock]) ++
        [DomNode.elem ltag [] none (lcs.drop (bi + 1))] ++ pcs.drop (li + 1)))) (pp ++ [li])
      (.elem lt la lal (lcs.take bi)) =
      replaceAt root pp (.elem pt pa pal
        (pcs.take li ++
          [.elem lt la lal (lcs.take bi), newBlock, .elem ltag [] none (lcs.drop (bi + 1))] ++
          pcs.drop (li + 1))) := by
    rw [replaceAt_snoc pp _ pt pa pal
      (((pcs.take li ++ [DomNode.elem lt la lal (lcs.take (bi + 1))]) ++ [newBlock]) ++
        [DomNode.elem ltag [] none (lcs.drop (bi + 1))] ++ pcs.drop (li + 1)) li
      (DomNode.elem lt la lal (lcs.take (bi + 1))) (.elem lt la lal (lcs.take bi)) [] hX3 hchild3,
      replaceAt_replaceAt pp root _ _ _ hpp]
    have hset : ((((pcs.take li ++ [DomNode.elem lt la lal (lcs.take (bi + 1))]) ++ [newBlock]) ++
        [DomNode.elem ltag [] none (lcs.drop (bi + 1))] ++ pcs.drop (li + 1)).set li
        (replaceAt (DomNode.elem lt la lal (lcs.take (bi + 1))) []
          (.elem lt la lal (lcs.take bi)))) =
        pcs.take li ++
          [.elem lt la lal (lcs.take bi), newBlock, .elem ltag [] none (lcs.drop (bi + 1))] ++
          pcs.drop (li + 1) := by
      rw [show replaceAt (DomNode.elem lt la lal (lcs.take (bi + 1))) []
          (.elem lt la lal (lcs.take bi)) = (.elem lt la lal (lcs.take bi) : DomNode) from rfl]
      rw [hpcs3eq, set_append_cons_of_len _ _ _ _ li hA]
      simp [List.append_assoc]
    rw [hset]
  simp only [extractListItem, List.dropLast_concat, if_neg h1, if_neg h2, if_neg h3, hstep1,
    hsnoc1, hstep2, hcol2, hstep3, hcol3, hstep4, hsnoc4]

theorem listsWFList_elem (cs : List DomNode) (i : Nat) (c : DomNode)
    (hwf : listsWFList cs = true) (hc : cs[i]? = some c) : listsWF c = true := by
  induction cs generalizing i with
  | nil => simp at hc
  | cons x xs ih =>
    simp only [listsWFList, Bool.and_eq_true] at hwf
    cases i with
    | zero =>
      simp only [List.getElem?_cons_zero, Option.some.injEq] at hc
      subst hc
      exact hwf.1
    | succ n =>
      simp only [List.getElem?_cons_succ] at hc
      exact ih n hwf.2 hc

theorem listsWF_nodeAt (p : DPath) (root n : DomNode) (hwf : listsWF root = true)
    (hn : nodeAt root p = some n) : listsWF n = true := by
  induction p generalizing root with
  | nil =>
    have : nodeAt root [] = some root := by cases root <;> rfl
    rw [this, Option.some.injEq] at hn
    subst hn
    exact hwf
  | cons i p ih =>
    cases root with
    | text s => simp [nodeAt] at hn
    | elem t a al cs =>
      simp only [nodeAt] at hn
      cases hc : cs[i]? with
      | none => rw [hc] at hn; exact Option.noConfusion hn
      | some c =>
        rw [hc] at hn
        simp only [listsWF, Bool.and_eq_true] at hwf
        exact ih c (listsWFList_elem cs i c hwf.2 hc) hn

theorem allLIs_singleton (lcs : List DomNode) (bi : Nat) (b : DomNode)
    (hall : allLIs lcs = true) (hcount : elemCount lcs = 1) (hbi : lcs[bi]? = some b) :
    lcs = [b] := by
  have hlen : lcs.length = 1 := by
    have : ∀ c ∈ lcs, isElemNode c = true := by
      intro c hc
      have := List.all_eq_true.mp hall c hc
      cases c with
      | text s => simp [isLINode] at this
      | elem t a2 al2 cs2 => rfl
    have hfe : lcs.filter isElemNode = lcs := List.filter_eq_self.mpr this
    rw [elemCount, hfe] at hcount
    exact hcount
  cases lcs with
  | nil => simp at hlen
  | cons x xs =>
    simp only [List.length_cons] at hlen
    have hxs : xs = [] := List.length_eq_zero.mp (by omega)
    subst hxs
    cases bi with
    | zero =>
      simp only [List.getElem?_cons_zero, Option.some.injEq] at hbi
      rw [hbi]
    | succ n => simp at hbi

theorem filter_elem_of_allLIs (cs : List DomNode) (h : allLIs cs = true) :
    cs.filter isElemNode = cs := by
  apply List.filter_eq_self.mpr
  intro c hc
  have := List.all_eq_true.mp h c hc
  cases c with
  | text s => simp [isLINode] at this
  | elem t a al cs2 => rfl

theorem elemIndexAmong_allLIs (cs : List DomNode) (i : Nat) (h : allLIs cs = true) :
    elemIndexAmong cs i = min i cs.length := by
  unfold elemIndexAmong
  have htake : allLIs (cs.take i) = true := by
    apply List.all_eq_true.mpr
    intro c hc
    exact List.all_eq_true.mp h c (List.mem_of_mem_take hc)
  rw [filter_elem_of_allLIs _ htake, List.length_take]

theorem elemCount_allLIs (cs : List DomNode) (h : allLIs cs = true) :
    elemCount cs = cs.length := by
  unfold elemCount
  rw [filter_elem_of_allLIs cs h]

theorem extractListItem_text (root : DomNode) (pp : DPath) (li : Nat) (ltag : String)
    (pt lt : String) (pa la : List (String × String)) (pal lal : Option String)
    (pcs lcs : List DomNode) (bi : Nat) (bt : String) (ba : List (String × String))
    (bal : Option String) (bcs : List DomNode) (newBlock root2 : DomNode) (nbPath : DPath)
    (hpp : nodeAt root pp = some (.elem pt pa pal pcs))
    (hli : pcs[li]? = some (.elem lt la lal lcs))
    (hbi : lcs[bi]? = some (.elem bt ba bal bcs))
    (hnb : textContent newBlock = textContentList bcs)
    (hLI : allLIs lcs = true)
    (h : extractListItem root (pp ++ [li]) li ltag lcs bi newBlock = some (root2, nbPath)) :
    textContent root2 = textContent root := by
  have hblen : bi < lcs.length := lt_of_getElem?_some hbi
  have hmid : ∀ mid : List DomNode, textContentList mid = textContentList lcs →
      replaceAt root pp (.elem pt pa pal (pcs.take li ++ mid ++ pcs.drop (li + 1))) = root2 →
      textContent root2 = textContent root := by
    intro mid hmidtext hrepl
    rw [← hrepl, tc_replaceAt pp root _ _ hpp, tc_split_path pp root _ hpp]
    simp only [textContent]
    rw [textContentList_append, textContentList_append, hmidtext,
      tcl_split pcs li _ hli]
    simp only [textContent]
  by_cases h1 : elemCount lcs = 1
  · rw [extractListItem_spec_only root pp li ltag pt lt pa la pal lal pcs lcs bi newBlock
      hpp hli h1] at h
    simp only [Option.some.injEq, Prod.mk.injEq] at h
    obtain ⟨h4, _⟩ := h
    rw [← h4, tc_replaceAt pp root _ _ hpp, tc_split_path pp root _ hpp]
    simp only [textContent]
    rw [tcl_set pcs li _ _ hli, tcl_split pcs li _ hli]
    simp only [textContent]
    rw [allLIs_singleton lcs bi _ hLI h1 hbi]
    apply String.ext
    simp [String.data_append, textContentList, textContent, hnb]
  · by_cases h2 : elemIndexAmong lcs bi = 0
    · rw [extractListItem_spec_first root pp li ltag pt lt pa la pal lal pcs lcs bi newBlock
        hpp hli h1 h2] at h
      simp only [Option.some.injEq, Prod.mk.injEq] at h
      obtain ⟨h4, _⟩ := h
      have h5 : min bi lcs.length = 0 := by
        rw [← elemIndexAmong_allLIs lcs bi hLI, h2]
      have hbi0 : bi = 0 := by omega
      subst hbi0
      apply hmid _ _ h4
      rw [tcl_split lcs 0 _ hbi]
      apply String.ext
      simp [String.data_append, textContentList, textContent, hnb]
    · by_cases h3 : elemIndexAmong lcs bi = elemCount lcs - 1
      · rw [extractListItem_spec_last root pp li ltag pt lt pa la pal lal pcs lcs bi newBlock
          hpp hli h1 h2 h3] at h
        simp only [Option.some.injEq, Prod.mk.injEq] at h
        obtain ⟨h4, _⟩ := h
        have h5 : min bi lcs.length = lcs.length - 1 := by
          rw [← elemIndexAmong_allLIs lcs bi hLI, h3, elemCount_allLIs lcs hLI]
        have hbilen : bi = lcs.length - 1 := by omega
        have hdrop : lcs.drop (bi + 1) = [] := List.drop_eq_nil_of_le (by omega)
        apply hmid _ _ h4
        rw [hdrop, tcl_split lcs bi _ hbi, hdrop]
        apply String.ext
        simp [String.data_append, textContentList, textContent, hnb]
      · rw [extractListItem_spec_middle root pp li ltag pt lt pa la pal lal pcs lcs bi newBlock
          hpp hli h1 h2 h3] at h
        simp only [Option.some.injEq, Prod.mk.injEq] at h
        obtain ⟨h4, _⟩ := h
        apply hmid _ _ h4
        rw [tcl_split lcs bi _ hbi]
        apply String.ext
        simp [String.data_append, textContentList, textContent, hnb]

theorem snoc_of_getLast? {α : Type} {l : List α} {a : α}
    (h : l.getLast? = some a) : l = l.dropLast ++ [a] := by
  induction l using List.reverseRecOn with
  | nil => simp at h
  | append_singleton xs x _ =>
    rw [List.getLast?_concat] at h
    simp only [Option.some.injEq] at h
    rw [List.dropLast_concat, h]

theorem nodeAt_singleton (t : String) (a : List (String × String)) (al : Option String)
    (cs : List DomNode) (i : Nat) : nodeAt (.elem t a al cs) [i] = cs[i]? := by
  simp only [nodeAt]
  cases cs[i]? with
  | none => rfl
  | some c => cases c <;> rfl

theorem nodeAt_snoc_elem (root n : DomNode) (pp : DPath) (i : Nat)
    (h : nodeAt root (pp ++ [i]) = some n) :
    ∃ t a al cs, nodeAt root pp = some (.elem t a al cs) ∧ cs[i]? = some n := by
  rw [nodeAt_append] at h
  cases hm : nodeAt root pp with
  | none => rw [hm] at h; simp at h
  | some m =>
    rw [hm] at h
    simp only [Option.some_bind] at h
    cases m with
    | text s => simp [nodeAt] at h
    | elem t a al cs =>
      rw [nodeAt_singleton] at h
      exact ⟨t, a, al, cs, rfl, h⟩

theorem allLIs_of_wf_list (root : DomNode) (lp : DPath) (ltag : String)
    (la : List (String × String)) (lal : Option String) (lcs : List DomNode)
    (hwf : listsWF root = true) (hlp : nodeAt root lp = some (.elem ltag la lal lcs))
    (hl : ltag = "UL" ∨ ltag = "OL") : allLIs lcs = true := by
  have h := listsWF_nodeAt lp root _ hwf hlp
  simp only [listsWF] at h
  have hb : (ltag == "UL" || ltag == "OL") = true := by
    rcases hl with h2 | h2 <;> subst h2 <;> rfl
  rw [hb] at h
  simp only [Bool.not_true, Bool.false_or, Bool.and_eq_true] at h
  exact h.1

theorem tc_updAt_replace (root : DomNode) (p : DPath) (n n' : DomNode) (root2 : DomNode)
    (f : DomNode → Option DomNode)
    (hn : nodeAt root p = some n) (hf : f n = some n')
    (htc : textContent n' = textContent n)
    (h : updAt root p f = some root2) :
    textContent root2 = textContent root := by
  rw [updAt_of_nodeAt p root n n' f hn hf] at h
  simp only [Option.some.injEq] at h
  rw [← h, tc_replaceAt p root n n' hn, htc, ← tc_split_path p root n hn]

theorem setBlockType_text (tagName : String) (sel : Option DomRange) (root root2 : DomNode)
    (sel2 : Option DomRange) (hwf : listsWF root = true)
    (h : setBlockType tagName sel root = some (root2, sel2)) :
    textContent root2 = textContent root := by
  cases sel with
  | none =>
    simp only [setBlockType, Option.some.injEq, Prod.mk.injEq] at h
    rw [← h.1]
  | some r =>
    simp only [setBlockType] at h
    split at h
    · simp only [Option.some.injEq, Prod.mk.injEq] at h
      rw [← h.1]
    · rename_i bp hfp
      split at h
      · rename_i btag battrs balign bcs bi heq1 heq2
        split at h
        · simp only [Option.some.injEq, Prod.mk.injEq] at h
          rw [← h.1]
        · rename_i hneq
          split at h
          · rename_i hbtagLI
            subst hbtagLI
            split at h
            · rename_i ltag la2 lal2 lcs heqL
              split at h
              · rename_i hl
                split at h
                · exact absurd h (by simp)
                · rename_i li heqg
                  split at h
                  · rename_i root2' nbPath hex
                    simp only [Option.some.injEq, Prod.mk.injEq] at h
                    rw [← h.1]
                    have hLI : allLIs lcs = true :=
                      allLIs_of_wf_list root bp.dropLast ltag la2 lal2 lcs hwf heqL hl
                    have hbp := snoc_of_getLast? heq2
                    rw [hbp, nodeAt_append, heqL, Option.some_bind, nodeAt_singleton] at heq1
                    have hlpdec := snoc_of_getLast? heqg
                    rw [hlpdec] at hex heqL
                    obtain ⟨pt, pa, pal, pcs, hppn, hlin⟩ := nodeAt_snoc_elem root _ _ _ heqL
                    exact extractListItem_text root bp.dropLast.dropLast li ltag pt ltag pa la2
                      pal lal2 pcs lcs bi "LI" battrs balign bcs
                      (.elem (upperTag tagName) [] none bcs) root2' nbPath hppn hlin heq1
                      rfl hLI hex
                  · exact absurd h (by simp)
              · split at h
                · rename_i root2' heqU
                  simp only [Option.some.injEq, Prod.mk.injEq] at h
                  rw [← h.1]
                  exact tc_updAt_replace root bp (.elem "LI" battrs balign bcs)
                    (.elem (upperTag tagName) [] balign bcs) root2'
                    (fun x => some (.elem (upperTag tagName) [] balign bcs)) heq1 rfl rfl heqU
                · exact absurd h (by simp)
            · exact absurd h (by simp)
          · split at h
            · rename_i root2' heqU
              simp only [Option.some.injEq, Prod.mk.injEq] at h
              rw [← h.1]
              exact tc_updAt_replace root bp (.elem btag battrs balign bcs)
                (.elem (upperTag tagName) [] balign bcs) root2'
                (fun x => some (.elem (upperTag tagName) [] balign bcs)) heq1 rfl rfl heqU
            · exact absurd h (by simp)
      · simp only [Option.some.injEq, Prod.mk.injEq] at h
        rw [← h.1]

theorem toggleList_text (listType : String) (sel : Option DomRange) (root root2 : DomNode)
    (sel2 : Option DomRange) (hwf : listsWF root = true)
    (hty : listType = "ul" ∨ listType = "ol")
    (h : toggleList listType sel root = some (root2, sel2)) :
    textContent root2 = textContent root := by
  cases sel with
  | none =>
    simp only [toggleList, Option.some.injEq, Prod.mk.injEq] at h
    rw [← h.1]
  | some r =>
    simp only [toggleList] at h
    split at h
    · simp only [Option.some.injEq, Prod.mk.injEq] at h
      rw [← h.1]
    · rename_i bp hfp
      split at h
      · rename_i btag battrs balign bcs bi heq1 heq2
        split at h
        · rename_i hbtagLI
          subst hbtagLI
          split at h
          · rename_i ltag la2 lal2 lcs li heqL heqg
            split at h
            · rename_i hl
              split at h
              · rename_i root2' pPath hex
                simp only [Option.some.injEq, Prod.mk.injEq] at h
                rw [← h.1]
                have hul : ltag = "UL" ∨ ltag = "OL" := by
                  rcases hty with h2 | h2 <;> subst h2
                  · exact Or.inl (hl.trans rfl)
                  · exact Or.inr (hl.trans rfl)
                have hLI : allLIs lcs = true :=
                  allLIs_of_wf_list root bp.dropLast ltag la2 lal2 lcs hwf heqL hul
                have hbp := snoc_of_getLast? heq2
                rw [hbp, nodeAt_append, heqL, Option.some_bind, nodeAt_singleton] at heq1
                have hlpdec := snoc_of_getLast? heqg
                rw [hlpdec] at hex heqL
                obtain ⟨pt, pa, pal, pcs, hppn, hlin⟩ := nodeAt_snoc_elem root _ _ _ heqL
                exact extractListItem_text root bp.dropLast.dropLast li ltag pt ltag pa la2
                  pal lal2 pcs lcs bi "LI" battrs balign bcs
                  (.elem "P" [] none bcs) root2' pPath hppn hlin heq1
                  rfl hLI hex
              · exact absurd h (by simp)
            · rename_i hlne
              split at h
              · exact absurd h (by simp)
              · rename_i root2' heqU
                split at h
                · rename_i k heqk
                  simp only [Option.some.injEq, Prod.mk.injEq] at h
                  rw [← h.1]
                  exact tc_updAt_replace root bp.dropLast (.elem ltag la2 lal2 lcs)
                    (.elem (upperTag listType) [] none lcs) root2'
                    (fun x => some (.elem (upperTag listType) [] none lcs)) heqL rfl rfl heqU
                · simp only [Option.some.injEq, Prod.mk.injEq] at h
                  rw [← h.1]
                  exact tc_updAt_replace root bp.dropLast (.elem ltag la2 lal2 lcs)
                    (.elem (upperTag listType) [] none lcs) root2'
                    (fun x => some (.elem (upperTag listType) [] none lcs)) heqL rfl rfl heqU
          · exact absurd h (by simp)
        · rename_i hne
          split at h
          · rename_i root2' heqU
            simp only [Option.some.injEq, Prod.mk.injEq] at h
            rw [← h.1]
            refine tc_updAt_replace root bp (.elem btag battrs balign bcs)
              (.elem (upperTag listType) [] none [.elem "LI" [] none bcs]) root2'
              (fun x => some (.elem (upperTag listType) [] none [.elem "LI" [] none bcs]))
              heq1 rfl ?_ heqU
            apply String.ext
            simp [textContent, textContentList, String.data_append]
          · exact absurd h (by simp)
      · simp only [Option.some.injEq, Prod.mk.injEq] at h
        rw [← h.1]

theorem toggleElement_text (tagName : String) (sel : Option DomRange) (root root2 : DomNode)
    (sel2 : Option DomRange)
    (h : toggleElement tagName sel root = some (root2, sel2)) :
    textContent root2 = textContent root := by
  cases sel with
  | none =>
    simp only [toggleElement, Option.some.injEq, Prod.mk.injEq] at h
    rw [← h.1]
  | some r =>
    simp only [toggleElement] at h
    split at h
    · split at h
      · simp only [Option.some.injEq] at h
        have h2 := unwrapSelection_text tagName (some r) root
        rw [h] at h2
        exact h2
      · simp only [Option.some.injEq, Prod.mk.injEq] at h
        rw [← h.1]
    · split at h
      · simp only [Option.some.injEq] at h
        have h2 := unwrapSelection_text tagName (some r) root
        rw [h] at h2
        exact h2
      · exact wrapSelectionPerBlock_text tagName [] (some r) root root2 sel2 h

/-- C1: every wrap, unwrap, or block-type-change mutation that completes
(`toggleElement`, `wrapSelectionPerBlock`, `unwrapSelection`, `setBlockType`
on a tree whose list containers hold only list items, `toggleList` invoked
with one of its two declared list kinds on such a tree) leaves the
concatenation of the tree's text content in document order identical;
only content-adding operations such as `insertFigure` may change it. -/
theorem C1_content_conservation :
    (∀ tagName sel root root2 sel2,
        toggleElement tagName sel root = some (root2, sel2) →
        textContent root2 = textContent root) ∧
    (∀ tagName attrs sel root root2 sel2,
        wrapSelectionPerBlock tagName attrs sel root = some (root2, sel2) →
        textContent root2 = textContent root) ∧
    (∀ tagName sel root,
        textContent (unwrapSelection tagName sel root).fst = textContent root) ∧
    (∀ tagName sel root root2 sel2, listsWF root = true →
        setBlockType tagName sel root = some (root2, sel2) →
        textContent root2 = textContent root) ∧
    (∀ listType sel root root2 sel2, listsWF root = true →
        (listType = "ul" ∨ listType = "ol") →
        toggleList listType sel root = some (root2, sel2) →
        textContent root2 = textContent root) :=
  ⟨fun t s r r2 s2 h => toggleElement_text t s r r2 s2 h,
   fun t a s r r2 s2 h => wrapSelectionPerBlock_text t a s r r2 s2 h,
   fun t s r => unwrapSelection_text t s r,
   fun t s r r2 s2 hwf h => setBlockType_text t s r r2 s2 hwf h,
   fun t s r r2 s2 hwf hty h => toggleList_text t s r r2 s2 hwf hty h⟩

theorem C1_content_conservation_witness :
    (textContent (DomNode.elem "DIV" [] none [DomNode.elem "P" [] none
        [DomNode.text "hello ", DomNode.elem "STRONG" [] none [DomNode.text "world"],
         DomNode.text ""]]) =
      textContent (DomNode.elem "DIV" [] none
        [DomNode.elem "P" [] none [DomNode.text "hello world"]])) ∧
    (textContent (DomNode.elem "DIV" [] none [DomNode.elem "P" [] none
        [DomNode.text "hello ", DomNode.elem "STRONG" [] none [DomNode.text "world"],
         DomNode.text ""]]) =
      textContent (DomNode.elem "DIV" [] none
        [DomNode.elem "P" [] none [DomNode.text "hello world"]])) ∧
    (textContent (unwrapSelection "strong"
        (some ⟨⟨[0, 1, 0], 0⟩, ⟨[0, 1, 0], 5⟩⟩)
        (DomNode.elem "DIV" [] none [DomNode.elem "P" [] none
          [DomNode.text "hello ",
           DomNode.elem "STRONG" [] none [DomNode.text "world"]]])).fst =
      textContent (DomNode.elem "DIV" [] none [DomNode.elem "P" [] none
        [DomNode.text "hello ",
         DomNode.elem "STRONG" [] none [DomNode.text "world"]]])) ∧
    (textContent (DomNode.elem "DIV" [] none
        [DomNode.elem "UL" [] none [DomNode.elem "LI" [] none [DomNode.text "item one"]],
         DomNode.elem "P" [] none [DomNode.text "item two"],
         DomNode.elem "UL" [] none [DomNode.elem "LI" [] none [DomNode.text "item three"]]]) =
      textContent (DomNode.elem "DIV" [] none [DomNode.elem "UL" [] none
        [DomNode.elem "LI" [] none [DomNode.text "item one"],
         DomNode.elem "LI" [] none [DomNode.text "item two"],
         DomNode.elem "LI" [] none [DomNode.text "item three"]]])) ∧
    (textContent (DomNode.elem "DIV" [] none [DomNode.elem "OL" [] none
        [DomNode.elem "LI" [] none [DomNode.text "one"],
         DomNode.elem "LI" [] none [DomNode.text "two"]]]) =
      textContent (DomNode.elem "DIV" [] none [DomNode.elem "UL" [] none
        [DomNode.elem "LI" [] none [DomNode.text "one"],
         DomNode.elem "LI" [] none [DomNode.text "two"]]])) :=
  ⟨C1_content_conservation.1 "strong" (some ⟨⟨[0, 0], 6⟩, ⟨[0, 0], 11⟩⟩) _ _
      (some ⟨⟨[0, 1], 0⟩, ⟨[0, 1], 1⟩⟩) rfl,
   C1_content_conservation.2.1 "strong" [] (some ⟨⟨[0, 0], 6⟩, ⟨[0, 0], 11⟩⟩) _ _
      (some ⟨⟨[0, 1], 0⟩, ⟨[0, 1], 1⟩⟩) rfl,
   C1_content_conservation.2.2.1 "strong" (some ⟨⟨[0, 1, 0], 0⟩, ⟨[0, 1, 0], 5⟩⟩) _,
   C1_content_conservation.2.2.2.1 "p" (some ⟨⟨[0, 1, 0], 0⟩, ⟨[0, 1, 0], 8⟩⟩) _ _
      (some ⟨⟨[1], 1⟩, ⟨[1], 1⟩⟩) rfl rfl,
   C1_content_conservation.2.2.2.2 "ol" (some ⟨⟨[0, 0, 0], 0⟩, ⟨[0, 0, 0], 0⟩⟩) _ _
      (some ⟨⟨[0, 1], 1⟩, ⟨[0, 1], 1⟩⟩) rfl (Or.inr rfl) rfl⟩

/-- C8: with no active selection (modelled as `sel = none`, covering a null
selection and zero ranges) every entry point — `toggleElement`,
`setBlockType`, `setAlignment`, `toggleList`, `insertFigure` — returns
normally (the model yields a value instead of `none`) and leaves the tree
completely unchanged. -/
theorem C8_no_selection_noop (tag v url : String) (root : DomNode) :
    toggleElement tag none root = some (root, none) ∧
    setBlockType tag none root = some (root, none) ∧
    setAlignment v none root = (root, none) ∧
    toggleList tag none root = some (root, none) ∧
    insertFigure url none root = some (root, none) :=
  ⟨rfl, rfl, rfl, rfl, rfl⟩

/-- C10: `FIGURE` belongs to the engine's block-tag set `BLOCK_TAGS`, yet
`getBlocksInSelection` only ever returns elements whose tag is in its local
list `P`, `H1`, `H2`, `BLOCKQUOTE`, `PRE`, `LI` — never a `FIGURE` element —
so a figure block intersecting a multi-block selection is never given its own
per-block wrap segment. -/
theorem C10_blocks_exclude_figure :
    "FIGURE" ∈ BLOCK_TAGS ∧
    ∀ (root : DomNode) (r : DomRange) (p : DPath),
      p ∈ getBlocksInSelection root r →
      ∃ t a al cs, nodeAt root p = some (DomNode.elem t a al cs) ∧
        t ∈ ["P", "H1", "H2", "BLOCKQUOTE", "PRE", "LI"] ∧ t ≠ "FIGURE" := by
  refine ⟨by decide, ?_⟩
  intro root r p hp
  simp only [getBlocksInSelection] at hp
  split at hp
  · rename_i n hn
    rw [List.mem_filter] at hp
    obtain ⟨_, hpred⟩ := hp
    simp only [Bool.and_eq_true] at hpred
    obtain ⟨htag, _⟩ := hpred
    simp only [isTagInAt] at htag
    split at htag
    · rename_i t a al cs heq
      refine ⟨t, a, al, cs, heq, of_decide_eq_true htag, ?_⟩
      intro hf
      subst hf
      exact absurd (of_decide_eq_true htag) (by decide)
    · exact absurd htag (by simp)
  · simp at hp

theorem C10_blocks_exclude_figure_witness :
    ("FIGURE" ∈ BLOCK_TAGS ∧
      [0, 0] ∈ getBlocksInSelection
        (DomNode.elem "DIV" [] none [DomNode.elem "UL" [] none
          [DomNode.elem "LI" [] none [DomNode.text "item one"],
           DomNode.elem "LI" [] none [DomNode.text "item two"],
           DomNode.elem "LI" [] none [DomNode.text "item three"]]])
        ⟨⟨[0, 0, 0], 5⟩, ⟨[0, 2, 0], 4⟩⟩) ∧
    ∃ t a al cs,
      nodeAt
        (DomNode.elem "DIV" [] none [DomNode.elem "UL" [] none
          [DomNode.elem "LI" [] none [DomNode.text "item one"],
           DomNode.elem "LI" [] none [DomNode.text "item two"],
           DomNode.elem "LI" [] none [DomNode.text "item three"]]])
        [0, 0] = some (DomNode.elem t a al cs) ∧
      t ∈ ["P", "H1", "H2", "BLOCKQUOTE", "PRE", "LI"] ∧ t ≠ "FIGURE" :=
  ⟨⟨C10_blocks_exclude_figure.1, by decide⟩,
   C10_blocks_exclude_figure.2
     (DomNode.elem "DIV" [] none [DomNode.elem "UL" [] none
       [DomNode.elem "LI" [] none [DomNode.text "item one"],
        DomNode.elem "LI" [] none [DomNode.text "item two"],
        DomNode.elem "LI" [] none [DomNode.text "item three"]]])
     ⟨⟨[0, 0, 0], 5⟩, ⟨[0, 2, 0], 4⟩⟩ [0, 0] (by decide)⟩

/-- C9: for a collapsed selection, `toggleElement(tag)` unwraps the enclosing
element of the tag when one exists — that element alone is removed, its
children re-inserted in its place, and the text content is preserved — and is
a silent no-op leaving the tree unchanged when no such ancestor exists. -/
theorem C9_collapsed_toggle (tagName : String) (root : DomNode) (r : DomRange)
    (pp : DPath) (i : Nat) (pt t : String) (pa a : List (String × String))
    (pal al : Option String) (pcs inner : List DomNode)
    (hcol : r.collapsed = true) :
    (findAncestorPath root tagName r.startPos.path = some (pp ++ [i]) →
      nodeAt root pp = some (.elem pt pa pal pcs) →
      pcs[i]? = some (.elem t a al inner) →
      ∃ sel2,
        toggleElement tagName (some r) root =
          some (replaceAt root pp
            (.elem pt pa pal (pcs.take i ++ inner ++ pcs.drop (i + 1))), sel2) ∧
        textContent (replaceAt root pp
            (.elem pt pa pal (pcs.take i ++ inner ++ pcs.drop (i + 1)))) =
          textContent root) ∧
    (findAncestorPath root tagName r.startPos.path = none →
      toggleElement tagName (some r) root = some (root, some r)) := by
  constructor
  · intro han hpp hin
    have hnodeAp : nodeAt root (pp ++ [i]) = some (DomNode.elem t a al inner) := by
      rw [nodeAt_append, hpp, Option.some_bind, nodeAt_singleton, hin]
    have hgl : (pp ++ [i]).getLast? = some i := by rw [List.getLast?_concat]
    have hunwrap : unwrapAt root (pp ++ [i]) =
        some (replaceAt root pp
          (DomNode.elem pt pa pal (pcs.take i ++ inner ++ pcs.drop (i + 1)))) := by
      simp only [unwrapAt, hgl, List.dropLast_concat]
      exact updChildren_of_nodeAt root pp pt pa pal pcs _ _ hpp (by rw [hin])
    refine ⟨some ⟨adjustAfterUnwrap (pp ++ [i]).dropLast i inner.length r.startPos,
        adjustAfterUnwrap (pp ++ [i]).dropLast i inner.length r.endPos⟩,
      ?_, unwrapAt_text root _ (pp ++ [i]) hunwrap⟩
    simp only [toggleElement, hcol, if_true, isInElement, han, Option.isSome_some,
      unwrapSelection, hnodeAp, hunwrap, hgl]
  · intro hnone
    simp only [toggleElement, hcol, if_true, isInElement, hnone, Option.isSome_none,
      Bool.false_eq_true, if_false]

theorem C9_collapsed_toggle_witness :
    (∃ sel2,
        toggleElement "strong" (some ⟨⟨[0, 1, 0], 2⟩, ⟨[0, 1, 0], 2⟩⟩)
            (DomNode.elem "DIV" [] none [DomNode.elem "P" [] none
              [DomNode.text "hello ",
               DomNode.elem "STRONG" [] none [DomNode.text "world"]]]) =
          some (DomNode.elem "DIV" [] none [DomNode.elem "P" [] none
              [DomNode.text "hello ", DomNode.text "world"]], sel2) ∧
        textContent (DomNode.elem "DIV" [] none [DomNode.elem "P" [] none
              [DomNode.text "hello ", DomNode.text "world"]]) =
          textContent (DomNode.elem "DIV" [] none [DomNode.elem "P" [] none
              [DomNode.text "hello ",
               DomNode.elem "STRONG" [] none [DomNode.text "world"]]])) ∧
    toggleElement "em" (some ⟨⟨[0, 1, 0], 2⟩, ⟨[0, 1, 0], 2⟩⟩)
        (DomNode.elem "DIV" [] none [DomNode.elem "P" [] none
          [DomNode.text "hello ",
           DomNode.elem "STRONG" [] none [DomNode.text "world"]]]) =
      some (DomNode.elem "DIV" [] none [DomNode.elem "P" [] none
          [DomNode.text "hello ",
           DomNode.elem "STRONG" [] none [DomNode.text "world"]]],
        some ⟨⟨[0, 1, 0], 2⟩, ⟨[0, 1, 0], 2⟩⟩) :=
  ⟨(C9_collapsed_toggle "strong"
      (DomNode.elem "DIV" [] none [DomNode.elem "P" [] none
        [DomNode.text "hello ", DomNode.elem "STRONG" [] none [DomNode.text "world"]]])
      ⟨⟨[0, 1, 0], 2⟩, ⟨[0, 1, 0], 2⟩⟩ [0] 1 "P" "STRONG" [] [] none none
      [DomNode.text "hello ", DomNode.elem "STRONG" [] none [DomNode.text "world"]]
      [DomNode.text "world"] (by decide)).1 rfl rfl rfl,
   (C9_collapsed_toggle "em"
      (DomNode.elem "DIV" [] none [DomNode.elem "P" [] none
        [DomNode.text "hello ", DomNode.elem "STRONG" [] none [DomNode.text "world"]]])
      ⟨⟨[0, 1, 0], 2⟩, ⟨[0, 1, 0], 2⟩⟩ [0] 1 "P" "STRONG" [] [] none none
      [DomNode.text "hello ", DomNode.elem "STRONG" [] none [DomNode.text "world"]]
      [DomNode.text "world"] (by decide)).2 rfl⟩

/-- C4: counterexample evaluation for the convert-in-place re-anchoring
clause.  On `UL[LI "one", LI "two"]` with the selection anchored in the first
item (element index 0), `toggleList "ol"` converts the container in place and
leaves the items untouched, but re-anchors the selection to the item at index
1 — the last element child — instead of the original item's index 0: the
source computes `indexOf` against the emptied old container (yielding `-1`,
hence `children[-1] || lastElementChild`). -/
theorem C4_convert_reanchor_bug :
    toggleList "ol" (some ⟨⟨[0, 0, 0], 0⟩, ⟨[0, 0, 0], 0⟩⟩)
        (DomNode.elem "DIV" [] none [DomNode.elem "UL" [] none
          [DomNode.elem "LI" [] none [DomNode.text "one"],
           DomNode.elem "LI" [] none [DomNode.text "two"]]]) =
      some (DomNode.elem "DIV" [] none [DomNode.elem "OL" [] none
          [DomNode.elem "LI" [] none [DomNode.text "one"],
           DomNode.elem "LI" [] none [DomNode.text "two"]]],
        some ⟨⟨[0, 1], 1⟩, ⟨[0, 1], 1⟩⟩) ∧
    (⟨⟨[0, 1], 1⟩, ⟨[0, 1], 1⟩⟩ : DomRange) ≠ ⟨⟨[0, 0], 1⟩, ⟨[0, 0], 1⟩⟩ :=
  ⟨rfl, by decide⟩

/-- C5: counterexample evaluation for toggle idempotence of the wrapped
boolean.  On `P[text "hello ", STRONG[text "world"]]` with the non-collapsed
selection covering exactly the wrapped word, `isSelectionFullyWrapped` is
initially `true`; the first `toggleElement "strong"` unwraps and — per the
live-range mutation steps, with no selection write-back — leaves the
selection collapsed at the parent, so the second application is a no-op and
the wrapped boolean ends `false`, not restored to `true`. -/
theorem C5_double_toggle_bug :
    isSelectionFullyWrapped
        (DomNode.elem "DIV" [] none [DomNode.elem "P" [] none
          [DomNode.text "hello ", DomNode.elem "STRONG" [] none [DomNode.text "world"]]])
        ⟨⟨[0, 1, 0], 0⟩, ⟨[0, 1, 0], 5⟩⟩ "strong" = true ∧
    (⟨⟨[0, 1, 0], 0⟩, ⟨[0, 1, 0], 5⟩⟩ : DomRange).collapsed = false ∧
    toggleElement "strong" (some ⟨⟨[0, 1, 0], 0⟩, ⟨[0, 1, 0], 5⟩⟩)
        (DomNode.elem "DIV" [] none [DomNode.elem "P" [] none
          [DomNode.text "hello ", DomNode.elem "STRONG" [] none [DomNode.text "world"]]]) =
      some (DomNode.elem "DIV" [] none [DomNode.elem "P" [] none
          [DomNode.text "hello ", DomNode.text "world"]],
        some ⟨⟨[0], 2⟩, ⟨[0], 2⟩⟩) ∧
    toggleElement "strong" (some ⟨⟨[0], 2⟩, ⟨[0], 2⟩⟩)
        (DomNode.elem "DIV" [] none [DomNode.elem "P" [] none
          [DomNode.text "hello ", DomNode.text "world"]]) =
      some (DomNode.elem "DIV" [] none [DomNode.elem "P" [] none
          [DomNode.text "hello ", DomNode.text "world"]],
        some ⟨⟨[0], 2⟩, ⟨[0], 2⟩⟩) ∧
    isSelectionFullyWrapped
        (DomNode.elem "DIV" [] none [DomNode.elem "P" [] none
          [DomNode.text "hello ", DomNode.text "world"]])
        ⟨⟨[0], 2⟩, ⟨[0], 2⟩⟩ "strong" = false :=
  ⟨rfl, rfl, rfl, rfl, rfl⟩

theorem hasTagList_append (tag : String) (xs ys : List DomNode) :
    hasTagList tag (xs ++ ys) = (hasTagList tag xs || hasTagList tag ys) := by
  induction xs with
  | nil => simp [hasTagList]
  | cons x xs ih => simp [hasTagList, ih, Bool.or_assoc]

mutual

theorem removeTagsNode_noTag (tag : String) : (n : DomNode) →
    hasTagList tag (removeTagsNode tag n) = false
  | .text s => by simp [removeTagsNode, hasTagList, hasTagNode]
  | .elem t a al cs => by
    simp only [removeTagsNode]
    split
    · exact removeTagsList_noTag tag cs
    · rename_i hne
      simp only [hasTagList, hasTagNode, removeTagsList_noTag tag cs]
      simp [hne]

theorem removeTagsList_noTag (tag : String) : (cs : List DomNode) →
    hasTagList tag (removeTagsList tag cs) = false
  | [] => rfl
  | c :: cs => by
    simp only [removeTagsList, hasTagList_append, removeTagsNode_noTag tag c,
      removeTagsList_noTag tag cs]
    rfl

end

mutual

theorem cleanupNode_hasTag (tag : String) : (n : DomNode) →
    hasTagNode tag (cleanupNode n) = true → hasTagNode tag n = true
  | .text s => fun h => h
  | .elem t a al cs => by
    simp only [cleanupNode, hasTagNode, Bool.or_eq_true]
    intro h
    rcases h with h | h
    · exact Or.inl h
    · exact Or.inr (cleanupList_hasTag tag cs h)

theorem cleanupList_hasTag (tag : String) : (cs : List DomNode) →
    hasTagList tag (cleanupList cs) = true → hasTagList tag cs = true
  | [] => fun h => h
  | c :: cs => by
    cases c with
    | text s =>
      simp only [cleanupList, hasTagList, hasTagNode, Bool.false_or]
      exact cleanupList_hasTag tag cs
    | elem t a al cs2 =>
      simp only [cleanupList]
      split
      · intro h
        have := cleanupList_hasTag tag cs h
        simp only [hasTagList, Bool.or_eq_true]
        exact Or.inr this
      · simp only [hasTagList, Bool.or_eq_true]
        intro h
        rcases h with h | h
        · exact Or.inl (cleanupNode_hasTag tag (.elem t a al cs2) h)
        · exact Or.inr (cleanupList_hasTag tag cs h)

end

/-- C6: a wrapper element produced by a completed `wrapRange` call never
contains a descendant element of its own tag: the extracted fragment has all
same-tag elements stripped (children spliced in their place, in order) before
it becomes the wrapper's content, and the subsequent empty-element cleanup
never introduces one, so re-wrapping an already-partially-wrapped span never
yields nested same-tag elements. -/
theorem C6_no_nested_same_tag (root : DomNode) (r : DomRange) (tagName : String)
    (attrs : List (String × String)) (t3 : DomNode) (wpath : DPath) (w : DomNode)
    (h : wrapRange root r tagName attrs = some (t3, wpath, w)) :
    ∃ cs, w = DomNode.elem (upperTag tagName) attrs none cs ∧
      hasTagList (upperTag tagName) cs = false := by
  simp only [wrapRange] at h
  split at h
  · exact Option.noConfusion h
  · rename_i t1 frag pos hex
    split at h
    · exact Option.noConfusion h
    · rename_i t2 wpath2 hins
      split at h
      · exact Option.noConfusion h
      · rename_i t3b hupd
        simp only [Option.some.injEq, Prod.mk.injEq] at h
        obtain ⟨_, _, hw⟩ := h
        refine ⟨cleanupList (removeTagsList (upperTag tagName) frag), ?_, ?_⟩
        · rw [← hw]
          rfl
        · cases hcase : hasTagList (upperTag tagName)
              (cleanupList (removeTagsList (upperTag tagName) frag)) with
          | false => rfl
          | true =>
            have h2 := cleanupList_hasTag _ _ hcase
            rw [removeTagsList_noTag] at h2
            exact absurd h2 (by simp)

theorem C6_no_nested_same_tag_witness :
    wrapRange
        (DomNode.elem "DIV" [] none [DomNode.elem "P" [] none [DomNode.text "hello world"]])
        ⟨⟨[0, 0], 6⟩, ⟨[0, 0], 11⟩⟩ "strong" [] =
      some (DomNode.elem "DIV" [] none [DomNode.elem "P" [] none
          [DomNode.text "hello ", DomNode.elem "STRONG" [] none [DomNode.text "world"],
           DomNode.text ""]],
        [0, 1], DomNode.elem "STRONG" [] none [DomNode.text "world"]) ∧
    ∃ cs, DomNode.elem "STRONG" [] none [DomNode.text "world"] =
        DomNode.elem (upperTag "strong") [] none cs ∧
      hasTagList (upperTag "strong") cs = false :=
  ⟨rfl,
   C6_no_nested_same_tag
     (DomNode.elem "DIV" [] none [DomNode.elem "P" [] none [DomNode.text "hello world"]])
     ⟨⟨[0, 0], 6⟩, ⟨[0, 0], 11⟩⟩ "strong" []
     (DomNode.elem "DIV" [] none [DomNode.elem "P" [] none
       [DomNode.text "hello ", DomNode.elem "STRONG" [] none [DomNode.text "world"],
        DomNode.text ""]])
     [0, 1] (DomNode.elem "STRONG" [] none [DomNode.text "world"]) rfl⟩

theorem cleanupList_noEmpty : (cs : List DomNode) →
    hasEmptyInlineList (cleanupList cs) = false
  | [] => rfl
  | c :: cs => by
    cases c with
    | text s =>
      simp only [cleanupList, hasEmptyInlineList, hasEmptyInlineNode, Bool.false_or]
      exact cleanupList_noEmpty cs
    | elem t a al cs2 =>
      simp only [cleanupList]
      split
      · exact cleanupList_noEmpty cs
      · rename_i hcond
        have hd : (decide (t ∈ INLINE_TAGS) &&
            decide ((textContent (.elem t a al cs2)).length = 0)) = false := by
          by_cases hp : t ∈ INLINE_TAGS
          · by_cases hq : (textContent (DomNode.elem t a al cs2)).length = 0
            · exact absurd ⟨hp, hq⟩ hcond
            · simp [hq]
          · simp [hp]
        simp only [hasEmptyInlineList, cleanupNode, hasEmptyInlineNode]
        have htc : textContent (DomNode.elem t a al (cleanupList cs2)) =
            textContent (DomNode.elem t a al cs2) := by
          simp only [textContent]
          exact cleanupList_text cs2
        rw [htc, hd, cleanupList_noEmpty cs2, cleanupList_noEmpty cs]
        rfl

/-- C7: counterexample to the unwrap half of the claim.  `unwrapSelection`
performs no empty-element cleanup: unwrapping the `STRONG` around
`EM[] , "x"` (a collapsed toggle with the cursor in `"x"`) completes and
leaves the empty `EM` element in the tree. -/
theorem C7_unwrap_leaves_empty_inline :
    toggleElement "strong" (some ⟨⟨[0, 0, 1], 0⟩, ⟨[0, 0, 1], 0⟩⟩)
        (DomNode.elem "DIV" [] none [DomNode.elem "P" [] none
          [DomNode.elem "STRONG" [] none
            [DomNode.elem "EM" [] none [], DomNode.text "x"]]]) =
      some (DomNode.elem "DIV" [] none [DomNode.elem "P" [] none
          [DomNode.elem "EM" [] none [], DomNode.text "x"]],
        some ⟨⟨[0], 2⟩, ⟨[0], 2⟩⟩) ∧
    hasEmptyInlineNode (DomNode.elem "DIV" [] none [DomNode.elem "P" [] none
          [DomNode.elem "EM" [] none [], DomNode.text "x"]]) = true :=
  ⟨rfl, rfl⟩

/-- C7: amended to the wrap path, where the source does call
`cleanupEmptyElements` on the wrapper's parent: after a completed `wrapRange`
the cleaned container at the wrapper's parent path has no inline/semantic
element with zero-length text content anywhere among its descendants (the
container node itself, which the source's cleanup never removes, excepted). -/
theorem C7_wrap_prunes_empty_inlines (root : DomNode) (r : DomRange) (tagName : String)
    (attrs : List (String × String)) (t3 : DomNode) (wpath : DPath) (w : DomNode)
    (h : wrapRange root r tagName attrs = some (t3, wpath, w)) :
    ∃ c, nodeAt t3 wpath.dropLast = some c ∧
      ∀ t a al cs, c = DomNode.elem t a al cs → hasEmptyInlineList cs = false := by
  simp only [wrapRange] at h
  split at h
  · exact Option.noConfusion h
  · rename_i t1 frag pos hex
    split at h
    · exact Option.noConfusion h
    · rename_i t2 wpath2 hins
      split at h
      · exact Option.noConfusion h
      · rename_i t3b hupd
        simp only [Option.some.injEq, Prod.mk.injEq] at h
        obtain ⟨ht3, hwp, hw⟩ := h
        obtain ⟨c0, c2, hn, hf, hrepl⟩ := updAt_characterize _ _ _ _ hupd
        simp only [Option.some.injEq] at hf
        subst ht3 hwp
        refine ⟨c2, ?_, ?_⟩
        · rw [hrepl]
          exact nodeAt_replaceAt_self _ _ _ _ hn
        · intro t a al cs hc
          subst hf
          cases c0 with
          | text s => exact absurd hc (by simp [cleanupNode])
          | elem t0 a0 al0 cs0 =>
            simp only [cleanupNode, DomNode.elem.injEq] at hc
            obtain ⟨_, _, _, hcs⟩ := hc
            rw [← hcs]
            exact cleanupList_noEmpty cs0

theorem C7_wrap_prunes_empty_inlines_witness :
    ∃ c, nodeAt
        (DomNode.elem "DIV" [] none [DomNode.elem "P" [] none
          [DomNode.text "hello ", DomNode.elem "STRONG" [] none [DomNode.text "world"],
           DomNode.text ""]]) [0] = some c ∧
      ∀ t a al cs, c = DomNode.elem t a al cs → hasEmptyInlineList cs = false :=
  C7_wrap_prunes_empty_inlines
    (DomNode.elem "DIV" [] none [DomNode.elem "P" [] none [DomNode.text "hello world"]])
    ⟨⟨[0, 0], 6⟩, ⟨[0, 0], 11⟩⟩ "strong" []
    (DomNode.elem "DIV" [] none [DomNode.elem "P" [] none
      [DomNode.text "hello ", DomNode.elem "STRONG" [] none [DomNode.text "world"],
       DomNode.text ""]])
    [0, 1] (DomNode.elem "STRONG" [] none [DomNode.text "world"]) rfl

/-- C3: extracting one item from an N-item list (the shared
`extractListItem` route taken by `setBlockType` with a non-list tag) yields
the replacement block in the item's stead and: for N = 1 no list at all, for
a first item one list holding the items after it, for a last item one list
holding the items before it, and for an interior item two lists holding the
items before and after it; the remaining items — `lcs.take bi ++
lcs.drop (bi + 1)` — are exactly N − 1 in number, each unchanged and in the
original order. -/
theorem C3_list_extraction (root root2 : DomNode) (pp nbPath : DPath) (li bi N : Nat)
    (ltag pt lt : String) (pa la : List (String × String)) (pal lal : Option String)
    (pcs lcs : List DomNode) (newBlock : DomNode)
    (hpp : nodeAt root pp = some (.elem pt pa pal pcs))
    (hli : pcs[li]? = some (.elem lt la lal lcs))
    (hbi : bi < lcs.length)
    (hLI : allLIs lcs = true)
    (hN : lcs.length = N)
    (h : extractListItem root (pp ++ [li]) li ltag lcs bi newBlock = some (root2, nbPath)) :
    ((lcs.take bi ++ lcs.drop (bi + 1)).length = N - 1) ∧
    (N = 1 →
      root2 = replaceAt root pp (.elem pt pa pal (pcs.set li newBlock))) ∧
    (bi = 0 → 1 < N →
      root2 = replaceAt root pp (.elem pt pa pal
        (pcs.take li ++ [newBlock, .elem lt la lal (lcs.drop 1)] ++ pcs.drop (li + 1)))) ∧
    (bi = N - 1 → 1 < N →
      root2 = replaceAt root pp (.elem pt pa pal
        (pcs.take li ++ [.elem lt la lal (lcs.take bi), newBlock] ++ pcs.drop (li + 1)))) ∧
    (0 < bi → bi < N - 1 →
      root2 = replaceAt root pp (.elem pt pa pal
        (pcs.take li ++ [.elem lt la lal (lcs.take bi), newBlock,
          .elem ltag [] none (lcs.drop (bi + 1))] ++ pcs.drop (li + 1)))) := by
  have hec : elemCount lcs = N := by rw [elemCount_allLIs lcs hLI, hN]
  have hidx : elemIndexAmong lcs bi = bi := by
    rw [elemIndexAmong_allLIs lcs bi hLI]
    omega
  refine ⟨?_, ?_, ?_, ?_, ?_⟩
  · simp only [List.length_append, List.length_take, List.length_drop]
    omega
  · intro h1
    rw [extractListItem_spec_only root pp li ltag pt lt pa la pal lal pcs lcs bi newBlock
      hpp hli (by omega)] at h
    simp only [Option.some.injEq, Prod.mk.injEq] at h
    exact h.1.symm
  · intro hb0 hN1
    subst hb0
    rw [extractListItem_spec_first root pp li ltag pt lt pa la pal lal pcs lcs 0 newBlock
      hpp hli (by omega) (by omega)] at h
    simp only [Option.some.injEq, Prod.mk.injEq] at h
    rw [← h.1]
    simp
  · intro hblast hN1
    have hdropnil : lcs.drop (bi + 1) = [] := List.drop_eq_nil_of_le (by omega)
    rw [extractListItem_spec_last root pp li ltag pt lt pa la pal lal pcs lcs bi newBlock
      hpp hli (by omega) (by omega) (by omega)] at h
    simp only [Option.some.injEq, Prod.mk.injEq] at h
    rw [← h.1, hdropnil]
    simp
  · intro hb1 hb2
    rw [extractListItem_spec_middle root pp li ltag pt lt pa la pal lal pcs lcs bi newBlock
      hpp hli (by omega) (by omega) (by omega)] at h
    simp only [Option.some.injEq, Prod.mk.injEq] at h
    exact h.1.symm

theorem C3_list_extraction_witness :
    (([DomNode.elem "LI" [] none [DomNode.text "item one"],
       DomNode.elem "LI" [] none [DomNode.text "item two"],
       DomNode.elem "LI" [] none [DomNode.text "item three"]].take 1 ++
      [DomNode.elem "LI" [] none [DomNode.text "item one"],
       DomNode.elem "LI" [] none [DomNode.text "item two"],
       DomNode.elem "LI" [] none [DomNode.text "item three"]].drop 2).length = 3 - 1) ∧
    (3 = 1 →
      DomNode.elem "DIV" [] none
          [DomNode.elem "UL" [] none [DomNode.elem "LI" [] none [DomNode.text "item one"]],
           DomNode.elem "P" [] none [DomNode.text "item two"],
           DomNode.elem "UL" [] none [DomNode.elem "LI" [] none [DomNode.text "item three"]]] =
        replaceAt
          (DomNode.elem "DIV" [] none [DomNode.elem "UL" [] none
            [DomNode.elem "LI" [] none [DomNode.text "item one"],
             DomNode.elem "LI" [] none [DomNode.text "item two"],
             DomNode.elem "LI" [] none [DomNode.text "item three"]]]) []
          (.elem "DIV" [] none
            ([DomNode.elem "UL" [] none
              [DomNode.elem "LI" [] none [DomNode.text "item one"],
               DomNode.elem "LI" [] none [DomNode.text "item two"],
               DomNode.elem "LI" [] none [DomNode.text "item three"]]].set 0
              (DomNode.elem "P" [] none [DomNode.text "item two"])))) ∧
    (1 = 0 → 1 < 3 →
      DomNode.elem "DIV" [] none
          [DomNode.elem "UL" [] none [DomNode.elem "LI" [] none [DomNode.text "item one"]],
           DomNode.elem "P" [] none [DomNode.text "item two"],
           DomNode.elem "UL" [] none [DomNode.elem "LI" [] none [DomNode.text "item three"]]] =
        replaceAt
          (DomNode.elem "DIV" [] none [DomNode.elem "UL" [] none
            [DomNode.elem "LI" [] none [DomNode.text "item one"],
             DomNode.elem "LI" [] none [DomNode.text "item two"],
             DomNode.elem "LI" [] none [DomNode.text "item three"]]]) []
          (.elem "DIV" [] none
            ([DomNode.elem "UL" [] none
              [DomNode.elem "LI" [] none [DomNode.text "item one"],
               DomNode.elem "LI" [] none [DomNode.text "item two"],
               DomNode.elem "LI" [] none [DomNode.text "item three"]]].take 0 ++
             [DomNode.elem "P" [] none [DomNode.text "item two"],
              .elem "UL" [] none
                ([DomNode.elem "LI" [] none [DomNode.text "item one"],
                  DomNode.elem "LI" [] none [DomNode.text "item two"],
                  DomNode.elem "LI" [] none [DomNode.text "item three"]].drop 1)] ++
             [DomNode.elem "UL" [] none
              [DomNode.elem "LI" [] none [DomNode.text "item one"],
               DomNode.elem "LI" [] none [DomNode.text "item two"],
               DomNode.elem "LI" [] none [DomNode.text "item three"]]].drop 1))) ∧
    (1 = 3 - 1 → 1 < 3 →
      DomNode.elem "DIV" [] none
          [DomNode.elem "UL" [] none [DomNode.elem "LI" [] none [DomNode.text "item one"]],
           DomNode.elem "P" [] none [DomNode.text "item two"],
           DomNode.elem "UL" [] none [DomNode.elem "LI" [] none [DomNode.text "item three"]]] =
        replaceAt
          (DomNode.elem "DIV" [] none [DomNode.elem "UL" [] none
            [DomNode.elem "LI" [] none [DomNode.text "item one"],
             DomNode.elem "LI" [] none [DomNode.text "item two"],
             DomNode.elem "LI" [] none [DomNode.text "item three"]]]) []
          (.elem "DIV" [] none
            ([DomNode.elem "UL" [] none
              [DomNode.elem "LI" [] none [DomNode.text "item one"],
               DomNode.elem "LI" [] none [DomNode.text "item two"],
               DomNode.elem "LI" [] none [DomNode.text "item three"]]].take 0 ++
             [.elem "UL" [] none
                ([DomNode.elem "LI" [] none [DomNode.text "item one"],
                  DomNode.elem "LI" [] none [DomNode.text "item two"],
                  DomNode.elem "LI" [] none [DomNode.text "item three"]].take 1),
              DomNode.elem "P" [] none [DomNode.text "item two"]] ++
             [DomNode.elem "UL" [] none
              [DomNode.elem "LI" [] none [DomNode.text "item one"],
               DomNode.elem "LI" [] none [DomNode.text "item two"],
               DomNode.elem "LI" [] none [DomNode.text "item three"]]].drop 1))) ∧
    (0 < 1 → 1 < 3 - 1 →
      DomNode.elem "DIV" [] none
          [DomNode.elem "UL" [] none [DomNode.elem "LI" [] none [DomNode.text "item one"]],
           DomNode.elem "P" [] none [DomNode.text "item two"],
           DomNode.elem "UL" [] none [DomNode.elem "LI" [] none [DomNode.text "item three"]]] =
        replaceAt
          (DomNode.elem "DIV" [] none [DomNode.elem "UL" [] none
            [DomNode.elem "LI" [] none [DomNode.text "item one"],
             DomNode.elem "LI" [] none [DomNode.text "item two"],
             DomNode.elem "LI" [] none [DomNode.text "item three"]]]) []
          (.elem "DIV" [] none
            ([DomNode.elem "UL" [] none
              [DomNode.elem "LI" [] none [DomNode.text "item one"],
               DomNode.elem "LI" [] none [DomNode.text "item two"],
               DomNode.elem "LI" [] none [DomNode.text "item three"]]].take 0 ++
             [.elem "UL" [] none
                ([DomNode.elem "LI" [] none [DomNode.text "item one"],
                  DomNode.elem "LI" [] none [DomNode.text "item two"],
                  DomNode.elem "LI" [] none [DomNode.text "item three"]].take 1),
              DomNode.elem "P" [] none [DomNode.text "item two"],
              .elem "UL" [] none
                ([DomNode.elem "LI" [] none [DomNode.text "item one"],
                  DomNode.elem "LI" [] none [DomNode.text "item two"],
                  DomNode.elem "LI" [] none [DomNode.text "item three"]].drop 2)] ++
             [DomNode.elem "UL" [] none
              [DomNode.elem "LI" [] none [DomNode.text "item one"],
               DomNode.elem "LI" [] none [DomNode.text "item two"],
               DomNode.elem "LI" [] none [DomNode.text "item three"]]].drop 1))) :=
  C3_list_extraction
    (DomNode.elem "DIV" [] none [DomNode.elem "UL" [] none
      [DomNode.elem "LI" [] none [DomNode.text "item one"],
       DomNode.elem "LI" [] none [DomNode.text "item two"],
       DomNode.elem "LI" [] none [DomNode.text "item three"]]])
    (DomNode.elem "DIV" [] none
      [DomNode.elem "UL" [] none [DomNode.elem "LI" [] none [DomNode.text "item one"]],
       DomNode.elem "P" [] none [DomNode.text "item two"],
       DomNode.elem "UL" [] none [DomNode.elem "LI" [] none [DomNode.text "item three"]]])
    [] [1] 0 1 3 "UL" "DIV" "UL" [] [] none none
    [DomNode.elem "UL" [] none
      [DomNode.elem "LI" [] none [DomNode.text "item one"],
       DomNode.elem "LI" [] none [DomNode.text "item two"],
       DomNode.elem "LI" [] none [DomNode.text "item three"]]]
    [DomNode.elem "LI" [] none [DomNode.text "item one"],
     DomNode.elem "LI" [] none [DomNode.text "item two"],
     DomNode.elem "LI" [] none [DomNode.text "item three"]]
    (DomNode.elem "P" [] none [DomNode.text "item two"])
    rfl rfl (by decide) rfl rfl rfl

theorem fullyWrappedRev_iff_exists (root : DomNode) (tagName : String) (r : DomRange) :
    ∀ rev : DPath,
      fullyWrappedRev root tagName r rev = true ↔
        ∃ k, k < rev.length ∧
          isTagAt root (rev.drop k).reverse tagName = true ∧
          containsRangeAt root (rev.drop k).reverse r = true := by
  intro rev
  induction rev with
  | nil => simp [fullyWrappedRev]
  | cons i rev ih =>
    simp only [fullyWrappedRev, Bool.or_eq_true, Bool.and_eq_true, ih]
    constructor
    · rintro (⟨h1, h2⟩ | ⟨k, hk, h1, h2⟩)
      · exact ⟨0, by simp, by simpa using h1, by simpa using h2⟩
      · exact ⟨k + 1, by simp only [List.length_cons]; omega, by simpa using h1,
          by simpa using h2⟩
    · rintro ⟨k, hk, h1, h2⟩
      cases k with
      | zero => exact Or.inl ⟨by simpa using h1, by simpa using h2⟩
      | succ k =>
        refine Or.inr ⟨k, ?_, by simpa using h1, by simpa using h2⟩
        simp only [List.length_cons] at hk
        omega

/-- C2: counterexample to the every-leaf-coverage reading.  In
`P[STRONG "he", STRONG "llo"]` with the selection spanning both wrapped
runs, every text leaf the selection touches sits under a `STRONG` ancestor
(the spec-modelled `specLeafCovered` is `true`), yet
`isSelectionFullyWrapped` is `false`: the source only tests single ancestors
of the common ancestor container for closed-interval containment, and no one
element contains the whole selection. -/
theorem C2_leaf_coverage_counterexample :
    specLeafCovered
        (DomNode.elem "DIV" [] none [DomNode.elem "P" [] none
          [DomNode.elem "STRONG" [] none [DomNode.text "he"],
           DomNode.elem "STRONG" [] none [DomNode.text "llo"]]])
        ⟨⟨[0, 0, 0], 0⟩, ⟨[0, 1, 0], 3⟩⟩ "strong" = true ∧
    isSelectionFullyWrapped
        (DomNode.elem "DIV" [] none [DomNode.elem "P" [] none
          [DomNode.elem "STRONG" [] none [DomNode.text "he"],
           DomNode.elem "STRONG" [] none [DomNode.text "llo"]]])
        ⟨⟨[0, 0, 0], 0⟩, ⟨[0, 1, 0], 3⟩⟩ "strong" = false :=
  ⟨rfl, rfl⟩

/-- C2: what the source actually computes (amended): for every selection and
tag, `isSelectionFullyWrapped` is `true` iff some ancestor-or-self element of
the walk start — the selection's common ancestor container, or its parent for
a text container — carries the tag and its content contains both selection
boundaries closed-interval (element start ≤ selection start and selection
end ≤ element end in document order, per `containsRangeAt`). -/
theorem C2_exists_ancestor_containment (root : DomNode) (r : DomRange) (tagName : String) :
    isSelectionFullyWrapped root r tagName = true ↔
      ∃ m, 0 < m ∧ m ≤ (wrapWalkStart root r).length ∧
        isTagAt root ((wrapWalkStart root r).take m) tagName = true ∧
        containsRangeAt root ((wrapWalkStart root r).take m) r = true := by
  rw [show isSelectionFullyWrapped root r tagName =
      fullyWrappedRev root tagName r (wrapWalkStart root r).reverse from rfl]
  rw [fullyWrappedRev_iff_exists]
  have hconv : ∀ k, ((wrapWalkStart root r).reverse.drop k).reverse =
      (wrapWalkStart root r).take ((wrapWalkStart root r).length - k) := by
    intro k
    rw [List.reverse_drop]
    simp
  constructor
  · rintro ⟨k, hk, h1, h2⟩
    rw [List.length_reverse] at hk
    rw [hconv] at h1 h2
    exact ⟨(wrapWalkStart root r).length - k, by omega, by omega, h1, h2⟩
  · rintro ⟨m, hm0, hmlen, h1, h2⟩
    refine ⟨(wrapWalkStart root r).length - m, ?_, ?_, ?_⟩
    · rw [List.length_reverse]
      omega
    · rw [hconv]
      have : (wrapWalkStart root r).length - ((wrapWalkStart root r).length - m) = m := by
        omega
      rw [this]
      exact h1
    · rw [hconv]
      have : (wrapWalkStart root r).length - ((wrapWalkStart root r).length - m) = m := by
        omega
      rw [this]
      exact h2
